import Mathlib

/-!
Verification of the isolation-ai game agent (src/game_agent.py).

The embedding models:
  - moves as pairs of integers (board coordinates), sentinel (-1, -1);
  - scores as `WithBot (WithTop ℤ)`: the evaluator returns finite values
    (floats in the source, integers here), and `float("-inf")` /
    `float("inf")` are `⊥` / `⊤`;
  - the board interface (`game.get_legal_moves`, `game.forecast_move`,
    `game.move_is_legal`) as a structure of functions over an abstract
    state type `σ`;
  - the agent (`CustomPlayer`) fields, with the `time_left` callback as a
    function from the number of oracle queries made so far to the
    milliseconds remaining at that query; every modelled function threads
    the query counter explicitly and returns it with its result;
  - the unbounded recursion (`depth` is a Python int and the module-level
    searchers recurse on `depth - 1` with no guard, and the iterative
    deepening driver is a `while True` loop) via an explicit fuel
    parameter: `none` means the modelled run did not finish within `fuel`
    steps; lemmas show any `1 ≤ depth` search finishes once
    `depth.toNat ≤ fuel`;
  - the `Timeout` exception raised by the non-iterative branch of
    `CustomPlayer.minimax` / `CustomPlayer.alphabeta` (and re-raised by
    `get_move` as `TimeoutError`) as `Except.error ()`.
-/

namespace IsolationAI

/-- A move is a (row, col) pair of integers; (-1, -1) is the sentinel. -/
abbrev Move : Type := ℤ × ℤ

/-- Scores: finite evaluator values plus -infinity and +infinity. -/
abbrev Score : Type := WithBot (WithTop ℤ)

/-- Embed a finite evaluator value into `Score`. -/
def Score.ofInt (n : ℤ) : Score := ((n : WithTop ℤ) : Score)

/-- The board interface consumed by the agent (isolation.Board methods). -/
structure Game (σ : Type) where
  get_legal_moves : σ → List Move
  forecast_move : σ → Move → σ
  move_is_legal : σ → Move → Bool

/-- The CustomPlayer configuration: `search_depth`, `iterative`, the
evaluator `score` (the `player` argument of the Python evaluator is the
agent itself, so it is baked in), the `method` string, the `time_left`
oracle indexed by query count, and the two thresholds set in `__init__`
(`TIMER_THRESHOLD` from the `timeout` parameter, `MIN_TIME_LEFT = 20`). -/
structure CustomPlayer (σ : Type) where
  search_depth : ℤ
  iterative : Bool
  score : σ → ℤ
  method : String
  time_left : ℕ → ℤ
  TIMER_THRESHOLD : ℤ
  MIN_TIME_LEFT : ℤ

variable {σ : Type}

/-- Loop of `get_minimax_max_move` (src lines 388-394): before each move a
time query; on `score > max_score` replace the accumulator. -/
def gmmMaxLoop (p : CustomPlayer σ) (g : Game σ) (game : σ) :
    List Move → Score → Option Move → ℕ → (Score × Option Move) × ℕ
  | [], b, bm, k => ((b, bm), k)
  | m :: rest, b, bm, k =>
    if p.time_left k < p.MIN_TIME_LEFT then ((b, bm), k + 1)
    else
      let s := Score.ofInt (p.score (g.forecast_move game m))
      if b < s then gmmMaxLoop p g game rest s (some m) (k + 1)
      else gmmMaxLoop p g game rest b bm (k + 1)

/-- get_minimax_max_move (src lines 383-395): max_score = -inf, move None. -/
def get_minimax_max_move (p : CustomPlayer σ) (g : Game σ) (game : σ)
    (legal_moves : List Move) (k : ℕ) : (Score × Option Move) × ℕ :=
  gmmMaxLoop p g game legal_moves ⊥ none k

/-- Loop of `get_minimax_min_move` (src lines 403-409). -/
def gmmMinLoop (p : CustomPlayer σ) (g : Game σ) (game : σ) :
    List Move → Score → Option Move → ℕ → (Score × Option Move) × ℕ
  | [], b, bm, k => ((b, bm), k)
  | m :: rest, b, bm, k =>
    if p.time_left k < p.MIN_TIME_LEFT then ((b, bm), k + 1)
    else
      let s := Score.ofInt (p.score (g.forecast_move game m))
      if s < b then gmmMinLoop p g game rest s (some m) (k + 1)
      else gmmMinLoop p g game rest b bm (k + 1)

/-- get_minimax_min_move (src lines 398-410): min_score = +inf, move None. -/
def get_minimax_min_move (p : CustomPlayer σ) (g : Game σ) (game : σ)
    (legal_moves : List Move) (k : ℕ) : (Score × Option Move) × ℕ :=
  gmmMinLoop p g game legal_moves ⊤ none k

/-- Loop of `get_alphabeta_max_move` (src lines 418-427): time query before
each move; on improvement raise alpha and break once `beta <= alpha`. -/
def gabMaxLoop (p : CustomPlayer σ) (g : Game σ) (game : σ) :
    List Move → Score → Option Move → Score → Score → ℕ →
    (Score × Option Move) × ℕ
  | [], b, bm, _, _, k => ((b, bm), k)
  | m :: rest, b, bm, alpha, beta, k =>
    if p.time_left k < p.MIN_TIME_LEFT then ((b, bm), k + 1)
    else
      let s := Score.ofInt (p.score (g.forecast_move game m))
      if b < s then
        if beta ≤ max alpha s then ((s, some m), k + 1)
        else gabMaxLoop p g game rest s (some m) (max alpha s) beta (k + 1)
      else gabMaxLoop p g game rest b bm alpha beta (k + 1)

/-- get_alphabeta_max_move (src lines 413-428): max_score = alpha, move None. -/
def get_alphabeta_max_move (p : CustomPlayer σ) (g : Game σ) (game : σ)
    (legal_moves : List Move) (alpha beta : Score) (k : ℕ) :
    (Score × Option Move) × ℕ :=
  gabMaxLoop p g game legal_moves alpha none alpha beta k

/-- Loop of `get_alphabeta_min_move` (src lines 436-445). -/
def gabMinLoop (p : CustomPlayer σ) (g : Game σ) (game : σ) :
    List Move → Score → Option Move → Score → Score → ℕ →
    (Score × Option Move) × ℕ
  | [], b, bm, _, _, k => ((b, bm), k)
  | m :: rest, b, bm, alpha, beta, k =>
    if p.time_left k < p.MIN_TIME_LEFT then ((b, bm), k + 1)
    else
      let s := Score.ofInt (p.score (g.forecast_move game m))
      if s < b then
        if min beta s ≤ alpha then ((s, some m), k + 1)
        else gabMinLoop p g game rest s (some m) alpha (min beta s) (k + 1)
      else gabMinLoop p g game rest b bm alpha beta (k + 1)

/-- get_alphabeta_min_move (src lines 431-446): min_score = beta, move None. -/
def get_alphabeta_min_move (p : CustomPlayer σ) (g : Game σ) (game : σ)
    (legal_moves : List Move) (alpha beta : Score) (k : ℕ) :
    (Score × Option Move) × ℕ :=
  gabMinLoop p g game legal_moves beta none alpha beta k

/-- Interior maximizing loop of the module-level `minimax` (src lines
314-323): a time query before each move, then a recursive descent whose
returned move is discarded, then strict-improvement accumulation. -/
def mmMaxLoopT (p : CustomPlayer σ)
    (rec : σ → ℕ → Option ((Score × Option Move) × ℕ)) (g : Game σ)
    (game : σ) :
    List Move → Score → Option Move → ℕ → Option ((Score × Option Move) × ℕ)
  | [], b, bm, k => some ((b, bm), k)
  | m :: rest, b, bm, k =>
    if p.time_left k < p.MIN_TIME_LEFT then some ((b, bm), k + 1)
    else
      match rec (g.forecast_move game m) (k + 1) with
      | none => none
      | some ((v, _), k') =>
        if b < v then mmMaxLoopT p rec g game rest v (some m) k'
        else mmMaxLoopT p rec g game rest b bm k'

/-- Interior minimizing loop of the module-level `minimax` (src lines
326-335). -/
def mmMinLoopT (p : CustomPlayer σ)
    (rec : σ → ℕ → Option ((Score × Option Move) × ℕ)) (g : Game σ)
    (game : σ) :
    List Move → Score → Option Move → ℕ → Option ((Score × Option Move) × ℕ)
  | [], b, bm, k => some ((b, bm), k)
  | m :: rest, b, bm, k =>
    if p.time_left k < p.MIN_TIME_LEFT then some ((b, bm), k + 1)
    else
      match rec (g.forecast_move game m) (k + 1) with
      | none => none
      | some ((v, _), k') =>
        if v < b then mmMinLoopT p rec g game rest v (some m) k'
        else mmMinLoopT p rec g game rest b bm k'

/-- Module-level `minimax(player, game, depth, maximizing_player)` (src
lines 297-335). Terminal states return the extreme score and the sentinel;
`depth == 1` (no time query, by short-circuit) or a tripped time query
selects the leaf helpers; otherwise the interior loops recurse at
`depth - 1` with the flag flipped. `fuel` bounds the recursion depth of
the model; `none` means fuel ran out. -/
def minimaxFn (p : CustomPlayer σ) (g : Game σ) :
    ℕ → σ → ℤ → Bool → ℕ → Option ((Score × Option Move) × ℕ)
  | 0, _, _, _, _ => none
  | fuel + 1, game, depth, maxp, k =>
    let lm := g.get_legal_moves game
    if lm = [] then
      some ((if maxp then ((⊥ : Score), some (-1, -1))
             else ((⊤ : Score), some (-1, -1))), k)
    else if depth = 1 then
      some (if maxp then get_minimax_max_move p g game lm k
            else get_minimax_min_move p g game lm k)
    else if p.time_left k < p.MIN_TIME_LEFT then
      some (if maxp then get_minimax_max_move p g game lm (k + 1)
            else get_minimax_min_move p g game lm (k + 1))
    else
      if maxp then
        mmMaxLoopT p (fun s k' => minimaxFn p g fuel s (depth - 1) false k')
          g game lm ⊥ none (k + 1)
      else
        mmMinLoopT p (fun s k' => minimaxFn p g fuel s (depth - 1) true k')
          g game lm ⊤ none (k + 1)

/-- Interior maximizing loop of the module-level `alphabeta` (src lines
357-367): no time query before the descent; on improvement raise alpha and
break once `beta <= alpha`, querying the clock (short-circuit) only when
that cutoff fails. -/
def abMaxLoopT (p : CustomPlayer σ)
    (rec : σ → Score → Score → ℕ → Option ((Score × Option Move) × ℕ))
    (g : Game σ) (game : σ) :
    List Move → Score → Option Move → Score → Score → ℕ →
    Option ((Score × Option Move) × ℕ)
  | [], b, bm, _, _, k => some ((b, bm), k)
  | m :: rest, b, bm, alpha, beta, k =>
    match rec (g.forecast_move game m) alpha beta k with
    | none => none
    | some ((v, _), k') =>
      if b < v then
        if beta ≤ max alpha v then some ((v, some m), k')
        else if p.time_left k' < p.MIN_TIME_LEFT then some ((v, some m), k' + 1)
        else abMaxLoopT p rec g game rest v (some m) (max alpha v) beta (k' + 1)
      else abMaxLoopT p rec g game rest b bm alpha beta k'

/-- Interior minimizing loop of the module-level `alphabeta` (src lines
369-379). -/
def abMinLoopT (p : CustomPlayer σ)
    (rec : σ → Score → Score → ℕ → Option ((Score × Option Move) × ℕ))
    (g : Game σ) (game : σ) :
    List Move → Score → Option Move → Score → Score → ℕ →
    Option ((Score × Option Move) × ℕ)
  | [], b, bm, _, _, k => some ((b, bm), k)
  | m :: rest, b, bm, alpha, beta, k =>
    match rec (g.forecast_move game m) alpha beta k with
    | none => none
    | some ((v, _), k') =>
      if v < b then
        if min beta v ≤ alpha then some ((v, some m), k')
        else if p.time_left k' < p.MIN_TIME_LEFT then some ((v, some m), k' + 1)
        else abMinLoopT p rec g game rest v (some m) alpha (min beta v) (k' + 1)
      else abMinLoopT p rec g game rest b bm alpha beta k'

/-- Module-level `alphabeta(player, game, depth, alpha, beta,
maximizing_player)` (src lines 338-379). -/
def alphabetaFn (p : CustomPlayer σ) (g : Game σ) :
    ℕ → σ → ℤ → Score → Score → Bool → ℕ → Option ((Score × Option Move) × ℕ)
  | 0, _, _, _, _, _, _ => none
  | fuel + 1, game, depth, alpha, beta, maxp, k =>
    let lm := g.get_legal_moves game
    if lm = [] then
      some ((if maxp then ((⊥ : Score), some (-1, -1))
             else ((⊤ : Score), some (-1, -1))), k)
    else if depth = 1 then
      some (if maxp then get_alphabeta_max_move p g game lm alpha beta k
            else get_alphabeta_min_move p g game lm alpha beta k)
    else if p.time_left k < p.MIN_TIME_LEFT then
      some (if maxp then get_alphabeta_max_move p g game lm alpha beta (k + 1)
            else get_alphabeta_min_move p g game lm alpha beta (k + 1))
    else
      if maxp then
        abMaxLoopT p
          (fun s a b k' => alphabetaFn p g fuel s (depth - 1) a b false k')
          g game lm alpha none alpha beta (k + 1)
      else
        abMinLoopT p
          (fun s a b k' => alphabetaFn p g fuel s (depth - 1) a b true k')
          g game lm beta none alpha beta (k + 1)

/-- The iterative deepening driver shared by `CustomPlayer.minimax` and
`CustomPlayer.alphabeta` (src lines 236-241 and 290-295): a `while True`
loop keeping the most recent returned (score, move), checking
`time_left() < TIMER_THRESHOLD` at the top of each iteration, deepening by
one each pass. Modelled with loop fuel. -/
def idLoop (p : CustomPlayer σ)
    (search : σ → ℤ → ℕ → Option ((Score × Option Move) × ℕ)) (game : σ) :
    ℕ → Option Score × Option Move → ℤ → ℕ →
    Option ((Option Score × Option Move) × ℕ)
  | 0, _, _, _ => none
  | f + 1, best, d, k =>
    if p.time_left k < p.TIMER_THRESHOLD then some (best, k + 1)
    else
      match search game d (k + 1) with
      | none => none
      | some ((s, m), k') => idLoop p search game f (some s, m) (d + 1) k'

/-- CustomPlayer.minimax (src lines 195-241): non-iterative raises
`Timeout` (modelled `Except.error ()`) when the per-turn check trips,
otherwise calls the module-level search at the given depth; iterative
ignores `depth` and runs the driver from depth 1. -/
def CustomPlayer.minimax (p : CustomPlayer σ) (g : Game σ) (fuel : ℕ)
    (game : σ) (depth : ℤ) (maxp : Bool) (k : ℕ) :
    Option (Except Unit (Option Score × Option Move) × ℕ) :=
  if p.iterative = false then
    if p.time_left k < p.TIMER_THRESHOLD then some (Except.error (), k + 1)
    else
      match minimaxFn p g fuel game depth maxp (k + 1) with
      | none => none
      | some ((s, m), k') => some (Except.ok (some s, m), k')
  else
    match idLoop p (fun s d k' => minimaxFn p g fuel s d maxp k') game fuel
        (none, none) 1 k with
    | none => none
    | some (best, k') => some (Except.ok best, k')

/-- CustomPlayer.alphabeta (src lines 243-295): same shape; the iterative
driver passes the method's `alpha`, `beta` parameters to every call. -/
def CustomPlayer.alphabeta (p : CustomPlayer σ) (g : Game σ) (fuel : ℕ)
    (game : σ) (depth : ℤ) (alpha beta : Score) (maxp : Bool) (k : ℕ) :
    Option (Except Unit (Option Score × Option Move) × ℕ) :=
  if p.iterative = false then
    if p.time_left k < p.TIMER_THRESHOLD then some (Except.error (), k + 1)
    else
      match alphabetaFn p g fuel game depth alpha beta maxp (k + 1) with
      | none => none
      | some ((s, m), k') => some (Except.ok (some s, m), k')
  else
    match idLoop p (fun s d k' => alphabetaFn p g fuel s d alpha beta maxp k')
        game fuel (none, none) 1 k with
    | none => none
    | some (best, k') => some (Except.ok best, k')

/-- CustomPlayer.get_move (src lines 121-193). Result channel:
`Except.error ()` models the `TimeoutError` re-raised from a caught
`Timeout`; `Except.ok mv` models a normal return where `mv = none` is the
Python value `None` (undefined move) and `mv = some (r, c)` a coordinate
pair. The opening shortcut fires on 0, 49 or 48 legal moves before any
search; otherwise the configured method runs. The minimax call is
`self.minimax(game, self.search_depth, True)` with True bound to
`maximizing_player`; the alphabeta call `self.alphabeta(game,
self.search_depth, True)` binds True positionally to the method's `alpha`
parameter (numerically 1), leaving `beta = +inf` and
`maximizing_player = True` at their defaults. A method string other than
the two known ones falls through and returns Python `None`. -/
def get_move (p : CustomPlayer σ) (g : Game σ) (fuel : ℕ) (game : σ)
    (legal_moves : List Move) (k : ℕ) :
    Option (Except Unit (Option Move) × ℕ) :=
  if legal_moves = [] then some (Except.ok (some (-1, -1)), k)
  else if legal_moves.length = 49 then some (Except.ok (some (4, 4)), k)
  else if legal_moves.length = 48 then
    if g.move_is_legal game (4, 4) then some (Except.ok (some (4, 4)), k)
    else some (Except.ok (some (0, 0)), k)
  else if p.method = "minimax" then
    match CustomPlayer.minimax p g fuel game p.search_depth true k with
    | none => none
    | some (Except.error _, k') => some (Except.error (), k')
    | some (Except.ok (_, m), k') => some (Except.ok m, k')
  else if p.method = "alphabeta" then
    match CustomPlayer.alphabeta p g fuel game p.search_depth (Score.ofInt 1) ⊤ true k with
    | none => none
    | some (Except.error _, k') => some (Except.error (), k')
    | some (Except.ok (_, m), k') => some (Except.ok m, k')
  else some (Except.ok none, k)

/-!
Pure (ample-time) layer: the same searches with every clock query assumed
to pass, used to state and prove the alpha-beta / minimax relationship.
The four scan functions share the common shape of the Python accumulation
loops; `tv m` is the true value a scanned move contributes and
`obs m alpha beta` the value the pruned search reports for it under the
current window. Bridging lemmas below connect these to the timed model.
-/

/-- Maximizing strict-improvement scan (shape of the Python loops in
get_minimax_max_move and the interior maximizing branch of minimax). -/
def mmScanMax (tv : Move → Score) :
    List Move → Score → Option Move → Score × Option Move
  | [], b, bm => (b, bm)
  | m :: rest, b, bm =>
    if b < tv m then mmScanMax tv rest (tv m) (some m)
    else mmScanMax tv rest b bm

/-- Minimizing strict-improvement scan. -/
def mmScanMin (tv : Move → Score) :
    List Move → Score → Option Move → Score × Option Move
  | [], b, bm => (b, bm)
  | m :: rest, b, bm =>
    if tv m < b then mmScanMin tv rest (tv m) (some m)
    else mmScanMin tv rest b bm

/-- Maximizing alpha-beta scan (shape of get_alphabeta_max_move and of the
interior maximizing branch of alphabeta, with ample time): on improvement
raise alpha to `max alpha v` and stop once `beta ≤ alpha`. -/
def abScanMax (obs : Move → Score → Score → Score) :
    List Move → Score → Option Move → Score → Score → Score × Option Move
  | [], b, bm, _, _ => (b, bm)
  | m :: rest, b, bm, alpha, beta =>
    let v := obs m alpha beta
    if b < v then
      if beta ≤ max alpha v then (v, some m)
      else abScanMax obs rest v (some m) (max alpha v) beta
    else abScanMax obs rest b bm alpha beta

/-- Minimizing alpha-beta scan. -/
def abScanMin (obs : Move → Score → Score → Score) :
    List Move → Score → Option Move → Score → Score → Score × Option Move
  | [], b, bm, _, _ => (b, bm)
  | m :: rest, b, bm, alpha, beta =>
    let v := obs m alpha beta
    if v < b then
      if min beta v ≤ alpha then (v, some m)
      else abScanMin obs rest v (some m) alpha (min beta v)
    else abScanMin obs rest b bm alpha beta

/-- Pure minimax at depth `d + 1` plies (the timed `minimaxFn` with every
clock query passing and `depth = d + 1 ≥ 1`); depth 0 is never reached
from a positive depth and returns a junk value. -/
def mmA (g : Game σ) (ev : σ → ℤ) : ℕ → σ → Bool → Score × Option Move
  | 0, _, _ => ((⊥ : Score), none)
  | d + 1, s, maxp =>
    let lm := g.get_legal_moves s
    if lm = [] then
      (if maxp then ((⊥ : Score), some (-1, -1))
       else ((⊤ : Score), some (-1, -1)))
    else if d = 0 then
      if maxp then
        mmScanMax (fun m => Score.ofInt (ev (g.forecast_move s m))) lm ⊥ none
      else
        mmScanMin (fun m => Score.ofInt (ev (g.forecast_move s m))) lm ⊤ none
    else
      if maxp then
        mmScanMax (fun m => (mmA g ev d (g.forecast_move s m) false).1)
          lm ⊥ none
      else
        mmScanMin (fun m => (mmA g ev d (g.forecast_move s m) true).1)
          lm ⊤ none

/-- Pure alpha-beta at depth `d + 1` plies. -/
def abA (g : Game σ) (ev : σ → ℤ) :
    ℕ → σ → Score → Score → Bool → Score × Option Move
  | 0, _, _, _, _ => ((⊥ : Score), none)
  | d + 1, s, alpha, beta, maxp =>
    let lm := g.get_legal_moves s
    if lm = [] then
      (if maxp then ((⊥ : Score), some (-1, -1))
       else ((⊤ : Score), some (-1, -1)))
    else if d = 0 then
      if maxp then
        abScanMax (fun m _ _ => Score.ofInt (ev (g.forecast_move s m)))
          lm alpha none alpha beta
      else
        abScanMin (fun m _ _ => Score.ofInt (ev (g.forecast_move s m)))
          lm beta none alpha beta
    else
      if maxp then
        abScanMax (fun m a b => (abA g ev d (g.forecast_move s m) a b false).1)
          lm alpha none alpha beta
      else
        abScanMin (fun m a b => (abA g ev d (g.forecast_move s m) a b true).1)
          lm beta none alpha beta

/-- Relation between a pruned child search (`obs`, evaluated under a
window) and the child's true minimax value (`tv`): a fail-low child
reports at most alpha, a fail-high child at least beta, and a child whose
true value lies strictly inside the window reports it exactly. -/
def ObsOK (tv : Move → Score) (obs : Move → Score → Score → Score) : Prop :=
  ∀ m alpha beta, alpha < beta →
    (tv m ≤ alpha → obs m alpha beta ≤ alpha) ∧
    (beta ≤ tv m → beta ≤ obs m alpha beta) ∧
    (alpha < tv m → tv m < beta → obs m alpha beta = tv m)

section ScanLemmas

variable {tv : Move → Score} {obs : Move → Score → Score → Score}

lemma mmScanMax_mono : ∀ (l : List Move) (b : Score) (bm : Option Move),
    b ≤ (mmScanMax tv l b bm).1 := by
  intro l
  induction l with
  | nil => intro b bm; exact le_refl b
  | cons m rest ih =>
    intro b bm
    simp only [mmScanMax]
    by_cases h : b < tv m
    · rw [if_pos h]
      exact le_trans (le_of_lt h) (ih (tv m) (some m))
    · rw [if_neg h]
      exact ih b bm

lemma mmScanMax_const : ∀ (l : List Move) (b : Score) (bm : Option Move),
    (∀ m ∈ l, tv m ≤ b) → mmScanMax tv l b bm = (b, bm) := by
  intro l
  induction l with
  | nil => intro b bm _; rfl
  | cons m rest ih =>
    intro b bm h
    simp only [mmScanMax]
    rw [if_neg (not_lt.mpr (h m (List.mem_cons_self m rest)))]
    exact ih b bm (fun m' hm' => h m' (List.mem_cons_of_mem m hm'))

lemma mmScanMax_ge_mem : ∀ (l : List Move) (b : Score) (bm : Option Move)
    (m : Move), m ∈ l → tv m ≤ (mmScanMax tv l b bm).1 := by
  intro l
  induction l with
  | nil => intro b bm m hm; cases hm
  | cons m0 rest ih =>
    intro b bm m hm
    simp only [mmScanMax]
    rcases List.mem_cons.mp hm with h | h
    · subst h
      by_cases hb : b < tv m
      · rw [if_pos hb]
        exact mmScanMax_mono rest (tv m) (some m)
      · rw [if_neg hb]
        exact le_trans (not_lt.mp hb) (mmScanMax_mono rest b bm)
    · by_cases hb : b < tv m0
      · rw [if_pos hb]
        exact ih (tv m0) (some m0) m h
      · rw [if_neg hb]
        exact ih b bm m h

lemma abScanMax_A (hobs : ObsOK tv obs) :
    ∀ (l : List Move) (a beta : Score) (bm : Option Move),
    a < beta → (∀ m ∈ l, tv m ≤ a) →
    abScanMax obs l a bm a beta = (a, bm) := by
  intro l
  induction l with
  | nil => intro a beta bm _ _; rfl
  | cons m rest ih =>
    intro a beta bm hab h
    have ho : obs m a beta ≤ a :=
      (hobs m a beta hab).1 (h m (List.mem_cons_self m rest))
    simp only [abScanMax]
    rw [if_neg (not_lt.mpr ho)]
    exact ih a beta bm hab (fun m' hm' => h m' (List.mem_cons_of_mem m hm'))

lemma abScanMax_B (hobs : ObsOK tv obs) :
    ∀ (l : List Move) (a beta : Score) (bm : Option Move) (bMM : Score)
    (bmMM : Option Move), bMM ≤ a → a < beta →
    beta ≤ (mmScanMax tv l bMM bmMM).1 →
    beta ≤ (abScanMax obs l a bm a beta).1 := by
  intro l
  induction l with
  | nil =>
    intro a beta bm bMM bmMM h1 h2 h3
    exact absurd (lt_of_le_of_lt (le_trans h3 h1) h2) (lt_irrefl beta)
  | cons m rest ih =>
    intro a beta bm bMM bmMM h1 h2 h3
    simp only [mmScanMax] at h3
    simp only [abScanMax]
    rcases le_or_lt (tv m) a with htv | htv
    · have ho : obs m a beta ≤ a := (hobs m a beta h2).1 htv
      rw [if_neg (not_lt.mpr ho)]
      by_cases hmm : bMM < tv m
      · rw [if_pos hmm] at h3
        exact ih a beta bm (tv m) (some m) htv h2 h3
      · rw [if_neg hmm] at h3
        exact ih a beta bm bMM bmMM h1 h2 h3
    · rcases lt_or_le (tv m) beta with hb | hb
      · have ho : obs m a beta = tv m := (hobs m a beta h2).2.2 htv hb
        rw [ho, if_pos htv, max_eq_right (le_of_lt htv),
          if_neg (not_le.mpr hb)]
        have hmm : bMM < tv m := lt_of_le_of_lt h1 htv
        rw [if_pos hmm] at h3
        exact ih (tv m) beta (some m) (tv m) (some m) (le_refl _) hb h3
      · have ho : beta ≤ obs m a beta := (hobs m a beta h2).2.1 hb
        have hbo : a < obs m a beta := lt_of_lt_of_le h2 ho
        rw [if_pos hbo, if_pos (le_trans ho (le_max_right a _))]
        exact ho

lemma abScanMax_eq (hobs : ObsOK tv obs) :
    ∀ (l : List Move) (b : Score) (bm : Option Move) (beta : Score),
    b < beta → (mmScanMax tv l b bm).1 < beta →
    abScanMax obs l b bm b beta = mmScanMax tv l b bm := by
  intro l
  induction l with
  | nil => intro b bm beta _ _; rfl
  | cons m rest ih =>
    intro b bm beta hb hres
    simp only [mmScanMax] at hres ⊢
    simp only [abScanMax]
    rcases le_or_lt (tv m) b with htv | htv
    · have ho : obs m b beta ≤ b := (hobs m b beta hb).1 htv
      rw [if_neg (not_lt.mpr ho), if_neg (not_lt.mpr htv)]
      rw [if_neg (not_lt.mpr htv)] at hres
      exact ih b bm beta hb hres
    · rcases lt_or_le (tv m) beta with hlt | hge
      · have ho : obs m b beta = tv m := (hobs m b beta hb).2.2 htv hlt
        rw [if_pos htv] at hres
        rw [ho, if_pos htv, max_eq_right (le_of_lt htv),
          if_neg (not_le.mpr hlt), if_pos htv]
        exact ih (tv m) (some m) beta hlt hres
      · rw [if_pos htv] at hres
        have : beta ≤ (mmScanMax tv rest (tv m) (some m)).1 :=
          le_trans hge (mmScanMax_mono rest (tv m) (some m))
        exact absurd hres (not_lt.mpr this)

lemma abScanMax_C (hobs : ObsOK tv obs) :
    ∀ (l : List Move) (alpha beta : Score) (bm : Option Move) (bMM : Score)
    (bmMM : Option Move), bMM ≤ alpha → alpha < beta →
    alpha < (mmScanMax tv l bMM bmMM).1 → (mmScanMax tv l bMM bmMM).1 < beta →
    abScanMax obs l alpha bm alpha beta = mmScanMax tv l bMM bmMM := by
  intro l
  induction l with
  | nil =>
    intro alpha beta bm bMM bmMM h1 h2 h3 h4
    exact absurd (lt_of_lt_of_le h3 h1) (lt_irrefl alpha)
  | cons m rest ih =>
    intro alpha beta bm bMM bmMM h1 h2 h3 h4
    simp only [mmScanMax] at h3 h4 ⊢
    simp only [abScanMax]
    rcases le_or_lt (tv m) alpha with htv | htv
    · have ho : obs m alpha beta ≤ alpha := (hobs m alpha beta h2).1 htv
      rw [if_neg (not_lt.mpr ho)]
      by_cases hmm : bMM < tv m
      · rw [if_pos hmm] at h3 h4 ⊢
        exact ih alpha beta bm (tv m) (some m) htv h2 h3 h4
      · rw [if_neg hmm] at h3 h4 ⊢
        exact ih alpha beta bm bMM bmMM h1 h2 h3 h4
    · have hmm : bMM < tv m := lt_of_le_of_lt h1 htv
      rw [if_pos hmm] at h3 h4 ⊢
      rcases lt_or_le (tv m) beta with hlt | hge
      · have ho : obs m alpha beta = tv m := (hobs m alpha beta h2).2.2 htv hlt
        rw [ho, if_pos htv, max_eq_right (le_of_lt htv),
          if_neg (not_le.mpr hlt)]
        exact abScanMax_eq hobs rest (tv m) (some m) beta hlt h4
      · have : beta ≤ (mmScanMax tv rest (tv m) (some m)).1 :=
          le_trans hge (mmScanMax_mono rest (tv m) (some m))
        exact absurd h4 (not_lt.mpr this)

lemma abScanMax_D (hobs : ObsOK tv obs) :
    ∀ (l : List Move) (b : Score) (bm : Option Move),
    b < ⊤ → abScanMax obs l b bm b ⊤ = mmScanMax tv l b bm := by
  intro l
  induction l with
  | nil => intro b bm _; rfl
  | cons m rest ih =>
    intro b bm hb
    simp only [abScanMax, mmScanMax]
    rcases le_or_lt (tv m) b with htv | htv
    · have ho : obs m b ⊤ ≤ b := (hobs m b ⊤ hb).1 htv
      rw [if_neg (not_lt.mpr ho), if_neg (not_lt.mpr htv)]
      exact ih b bm hb
    · rcases lt_or_le (tv m) ⊤ with hlt | hge
      · have ho : obs m b ⊤ = tv m := (hobs m b ⊤ hb).2.2 htv hlt
        rw [ho, if_pos htv, max_eq_right (le_of_lt htv),
          if_neg (not_le.mpr hlt), if_pos htv]
        exact ih (tv m) (some m) hlt
      · have htop : tv m = ⊤ := le_antisymm le_top hge
        have ho : obs m b ⊤ = ⊤ :=
          le_antisymm le_top ((hobs m b ⊤ hb).2.1 hge)
        rw [ho, if_pos hb, max_eq_right (le_of_lt hb), if_pos (le_refl _),
          if_pos htv, htop]
        rw [mmScanMax_const rest ⊤ (some m) (fun m' _ => le_top)]

lemma mmScanMin_mono : ∀ (l : List Move) (b : Score) (bm : Option Move),
    (mmScanMin tv l b bm).1 ≤ b := by
  intro l
  induction l with
  | nil => intro b bm; exact le_refl b
  | cons m rest ih =>
    intro b bm
    simp only [mmScanMin]
    by_cases h : tv m < b
    · rw [if_pos h]
      exact le_trans (ih (tv m) (some m)) (le_of_lt h)
    · rw [if_neg h]
      exact ih b bm

lemma mmScanMin_const : ∀ (l : List Move) (b : Score) (bm : Option Move),
    (∀ m ∈ l, b ≤ tv m) → mmScanMin tv l b bm = (b, bm) := by
  intro l
  induction l with
  | nil => intro b bm _; rfl
  | cons m rest ih =>
    intro b bm h
    simp only [mmScanMin]
    rw [if_neg (not_lt.mpr (h m (List.mem_cons_self m rest)))]
    exact ih b bm (fun m' hm' => h m' (List.mem_cons_of_mem m hm'))

lemma mmScanMin_le_mem : ∀ (l : List Move) (b : Score) (bm : Option Move)
    (m : Move), m ∈ l → (mmScanMin tv l b bm).1 ≤ tv m := by
  intro l
  induction l with
  | nil => intro b bm m hm; cases hm
  | cons m0 rest ih =>
    intro b bm m hm
    simp only [mmScanMin]
    rcases List.mem_cons.mp hm with h | h
    · subst h
      by_cases hb : tv m < b
      · rw [if_pos hb]
        exact mmScanMin_mono rest (tv m) (some m)
      · rw [if_neg hb]
        exact le_trans (mmScanMin_mono rest b bm) (not_lt.mp hb)
    · by_cases hb : tv m0 < b
      · rw [if_pos hb]
        exact ih (tv m0) (some m0) m h
      · rw [if_neg hb]
        exact ih b bm m h

lemma abScanMin_B (hobs : ObsOK tv obs) :
    ∀ (l : List Move) (alpha b : Score) (bm : Option Move),
    alpha < b → (∀ m ∈ l, b ≤ tv m) →
    abScanMin obs l b bm alpha b = (b, bm) := by
  intro l
  induction l with
  | nil => intro alpha b bm _ _; rfl
  | cons m rest ih =>
    intro alpha b bm hab h
    have ho : b ≤ obs m alpha b :=
      (hobs m alpha b hab).2.1 (h m (List.mem_cons_self m rest))
    simp only [abScanMin]
    rw [if_neg (not_lt.mpr ho)]
    exact ih alpha b bm hab (fun m' hm' => h m' (List.mem_cons_of_mem m hm'))

lemma abScanMin_A (hobs : ObsOK tv obs) :
    ∀ (l : List Move) (alpha b : Score) (bm : Option Move) (bMM : Score)
    (bmMM : Option Move), b ≤ bMM → alpha < b →
    (mmScanMin tv l bMM bmMM).1 ≤ alpha →
    (abScanMin obs l b bm alpha b).1 ≤ alpha := by
  intro l
  induction l with
  | nil =>
    intro alpha b bm bMM bmMM h1 h2 h3
    exact absurd (lt_of_lt_of_le h2 (le_trans h1 h3)) (lt_irrefl alpha)
  | cons m rest ih =>
    intro alpha b bm bMM bmMM h1 h2 h3
    simp only [mmScanMin] at h3
    simp only [abScanMin]
    rcases le_or_lt b (tv m) with htv | htv
    · have ho : b ≤ obs m alpha b := (hobs m alpha b h2).2.1 htv
      rw [if_neg (not_lt.mpr ho)]
      by_cases hmm : tv m < bMM
      · rw [if_pos hmm] at h3
        exact ih alpha b bm (tv m) (some m) htv h2 h3
      · rw [if_neg hmm] at h3
        exact ih alpha b bm bMM bmMM h1 h2 h3
    · rcases lt_or_le alpha (tv m) with ha | ha
      · have ho : obs m alpha b = tv m := (hobs m alpha b h2).2.2 ha htv
        rw [ho, if_pos htv, min_eq_right (le_of_lt htv),
          if_neg (not_le.mpr ha)]
        have hmm : tv m < bMM := lt_of_lt_of_le htv h1
        rw [if_pos hmm] at h3
        exact ih alpha (tv m) (some m) (tv m) (some m) (le_refl _) ha h3
      · have ho : obs m alpha b ≤ alpha := (hobs m alpha b h2).1 ha
        have hbo : obs m alpha b < b := lt_of_le_of_lt ho h2
        rw [if_pos hbo, if_pos (le_trans (min_le_right b _) ho)]
        exact ho

lemma abScanMin_eq (hobs : ObsOK tv obs) :
    ∀ (l : List Move) (b : Score) (bm : Option Move) (alpha : Score),
    alpha < b → alpha < (mmScanMin tv l b bm).1 →
    abScanMin obs l b bm alpha b = mmScanMin tv l b bm := by
  intro l
  induction l with
  | nil => intro b bm alpha _ _; rfl
  | cons m rest ih =>
    intro b bm alpha hb hres
    simp only [mmScanMin] at hres ⊢
    simp only [abScanMin]
    rcases le_or_lt b (tv m) with htv | htv
    · have ho : b ≤ obs m alpha b := (hobs m alpha b hb).2.1 htv
      rw [if_neg (not_lt.mpr ho), if_neg (not_lt.mpr htv)]
      rw [if_neg (not_lt.mpr htv)] at hres
      exact ih b bm alpha hb hres
    · rcases lt_or_le alpha (tv m) with hlt | hge
      · have ho : obs m alpha b = tv m := (hobs m alpha b hb).2.2 hlt htv
        rw [if_pos htv] at hres
        rw [ho, if_pos htv, min_eq_right (le_of_lt htv),
          if_neg (not_le.mpr hlt), if_pos htv]
        exact ih (tv m) (some m) alpha hlt hres
      · rw [if_pos htv] at hres
        have : (mmScanMin tv rest (tv m) (some m)).1 ≤ alpha :=
          le_trans (mmScanMin_mono rest (tv m) (some m)) hge
        exact absurd hres (not_lt.mpr this)

lemma abScanMin_C (hobs : ObsOK tv obs) :
    ∀ (l : List Move) (alpha beta : Score) (bm : Option Move) (bMM : Score)
    (bmMM : Option Move), beta ≤ bMM → alpha < beta →
    alpha < (mmScanMin tv l bMM bmMM).1 → (mmScanMin tv l bMM bmMM).1 < beta →
    abScanMin obs l beta bm alpha beta = mmScanMin tv l bMM bmMM := by
  intro l
  induction l with
  | nil =>
    intro alpha beta bm bMM bmMM h1 h2 h3 h4
    exact absurd (lt_of_le_of_lt h1 h4) (lt_irrefl beta)
  | cons m rest ih =>
    intro alpha beta bm bMM bmMM h1 h2 h3 h4
    simp only [mmScanMin] at h3 h4 ⊢
    simp only [abScanMin]
    rcases le_or_lt beta (tv m) with htv | htv
    · have ho : beta ≤ obs m alpha beta := (hobs m alpha beta h2).2.1 htv
      rw [if_neg (not_lt.mpr ho)]
      by_cases hmm : tv m < bMM
      · rw [if_pos hmm] at h3 h4 ⊢
        exact ih alpha beta bm (tv m) (some m) htv h2 h3 h4
      · rw [if_neg hmm] at h3 h4 ⊢
        exact ih alpha beta bm bMM bmMM h1 h2 h3 h4
    · have hmm : tv m < bMM := lt_of_lt_of_le htv h1
      rw [if_pos hmm] at h3 h4 ⊢
      rcases lt_or_le alpha (tv m) with hlt | hge
      · have ho : obs m alpha beta = tv m := (hobs m alpha beta h2).2.2 hlt htv
        rw [ho, if_pos htv, min_eq_right (le_of_lt htv),
          if_neg (not_le.mpr hlt)]
        exact abScanMin_eq hobs rest (tv m) (some m) alpha hlt h3
      · have : (mmScanMin tv rest (tv m) (some m)).1 ≤ alpha :=
          le_trans (mmScanMin_mono rest (tv m) (some m)) hge
        exact absurd h3 (not_lt.mpr this)

lemma abScanMin_D (hobs : ObsOK tv obs) :
    ∀ (l : List Move) (b : Score) (bm : Option Move),
    ⊥ < b → abScanMin obs l b bm ⊥ b = mmScanMin tv l b bm := by
  intro l
  induction l with
  | nil => intro b bm _; rfl
  | cons m rest ih =>
    intro b bm hb
    simp only [abScanMin, mmScanMin]
    rcases le_or_lt b (tv m) with htv | htv
    · have ho : b ≤ obs m ⊥ b := (hobs m ⊥ b hb).2.1 htv
      rw [if_neg (not_lt.mpr ho), if_neg (not_lt.mpr htv)]
      exact ih b bm hb
    · rcases lt_or_le ⊥ (tv m) with hlt | hge
      · have ho : obs m ⊥ b = tv m := (hobs m ⊥ b hb).2.2 hlt htv
        rw [ho, if_pos htv, min_eq_right (le_of_lt htv),
          if_neg (not_le.mpr hlt), if_pos htv]
        exact ih (tv m) (some m) hlt
      · have hbot : tv m = ⊥ := le_antisymm hge bot_le
        have ho : obs m ⊥ b = ⊥ :=
          le_antisymm ((hobs m ⊥ b hb).1 hge) bot_le
        rw [ho, if_pos hb, min_eq_right (le_of_lt hb), if_pos (le_refl _),
          if_pos htv, hbot]
        rw [mmScanMin_const rest ⊥ (some m) (fun m' _ => bot_le)]

end ScanLemmas

lemma obsOK_exact (tv : Move → Score) : ObsOK tv (fun m _ _ => tv m) := by
  intro m alpha beta _
  exact ⟨fun h1 => h1, fun h1 => h1, fun _ _ => rfl⟩

lemma mmA_terminal (g : Game σ) (ev : σ → ℤ) (d : ℕ) (s : σ) (maxp : Bool)
    (h : g.get_legal_moves s = []) :
    mmA g ev (d + 1) s maxp =
      if maxp then ((⊥ : Score), some (-1, -1))
      else ((⊤ : Score), some (-1, -1)) := by
  simp [mmA, h]

lemma abA_terminal (g : Game σ) (ev : σ → ℤ) (d : ℕ) (s : σ)
    (alpha beta : Score) (maxp : Bool) (h : g.get_legal_moves s = []) :
    abA g ev (d + 1) s alpha beta maxp =
      if maxp then ((⊥ : Score), some (-1, -1))
      else ((⊤ : Score), some (-1, -1)) := by
  simp [abA, h]

lemma mmA_leaf (g : Game σ) (ev : σ → ℤ) (s : σ) (maxp : Bool)
    (h : ¬g.get_legal_moves s = []) :
    mmA g ev 1 s maxp =
      if maxp then
        mmScanMax (fun m => Score.ofInt (ev (g.forecast_move s m)))
          (g.get_legal_moves s) ⊥ none
      else
        mmScanMin (fun m => Score.ofInt (ev (g.forecast_move s m)))
          (g.get_legal_moves s) ⊤ none := by
  simp [mmA, h]

lemma abA_leaf (g : Game σ) (ev : σ → ℤ) (s : σ) (alpha beta : Score)
    (maxp : Bool) (h : ¬g.get_legal_moves s = []) :
    abA g ev 1 s alpha beta maxp =
      if maxp then
        abScanMax (fun m _ _ => Score.ofInt (ev (g.forecast_move s m)))
          (g.get_legal_moves s) alpha none alpha beta
      else
        abScanMin (fun m _ _ => Score.ofInt (ev (g.forecast_move s m)))
          (g.get_legal_moves s) beta none alpha beta := by
  simp [abA, h]

lemma mmA_interior (g : Game σ) (ev : σ → ℤ) (d : ℕ) (s : σ) (maxp : Bool)
    (h : ¬g.get_legal_moves s = []) :
    mmA g ev (d + 2) s maxp =
      if maxp then
        mmScanMax (fun m => (mmA g ev (d + 1) (g.forecast_move s m) false).1)
          (g.get_legal_moves s) ⊥ none
      else
        mmScanMin (fun m => (mmA g ev (d + 1) (g.forecast_move s m) true).1)
          (g.get_legal_moves s) ⊤ none := by
  simp [mmA, h]

lemma abA_interior (g : Game σ) (ev : σ → ℤ) (d : ℕ) (s : σ)
    (alpha beta : Score) (maxp : Bool) (h : ¬g.get_legal_moves s = []) :
    abA g ev (d + 2) s alpha beta maxp =
      if maxp then
        abScanMax
          (fun m a b => (abA g ev (d + 1) (g.forecast_move s m) a b false).1)
          (g.get_legal_moves s) alpha none alpha beta
      else
        abScanMin
          (fun m a b => (abA g ev (d + 1) (g.forecast_move s m) a b true).1)
          (g.get_legal_moves s) beta none alpha beta := by
  simp [abA, h]

/-- Window invariant at a maximizing node whose children satisfy `ObsOK`. -/
lemma nodeMax {tv : Move → Score} {obs : Move → Score → Score → Score}
    (hobs : ObsOK tv obs) (lm : List Move) (alpha beta : Score)
    (hab : alpha < beta) :
    ((mmScanMax tv lm ⊥ none).1 ≤ alpha →
      (abScanMax obs lm alpha none alpha beta).1 ≤ alpha) ∧
    (beta ≤ (mmScanMax tv lm ⊥ none).1 →
      beta ≤ (abScanMax obs lm alpha none alpha beta).1) ∧
    (alpha < (mmScanMax tv lm ⊥ none).1 → (mmScanMax tv lm ⊥ none).1 < beta →
      abScanMax obs lm alpha none alpha beta = mmScanMax tv lm ⊥ none) := by
  refine ⟨fun h1 => ?_, fun h1 => ?_, fun h1 h2 => ?_⟩
  · rw [abScanMax_A hobs lm alpha beta none hab
      (fun m hm => le_trans (mmScanMax_ge_mem lm ⊥ none m hm) h1)]
  · exact abScanMax_B hobs lm alpha beta none ⊥ none bot_le hab h1
  · exact abScanMax_C hobs lm alpha beta none ⊥ none bot_le hab h1 h2

/-- Window invariant at a minimizing node whose children satisfy `ObsOK`. -/
lemma nodeMin {tv : Move → Score} {obs : Move → Score → Score → Score}
    (hobs : ObsOK tv obs) (lm : List Move) (alpha beta : Score)
    (hab : alpha < beta) :
    ((mmScanMin tv lm ⊤ none).1 ≤ alpha →
      (abScanMin obs lm beta none alpha beta).1 ≤ alpha) ∧
    (beta ≤ (mmScanMin tv lm ⊤ none).1 →
      beta ≤ (abScanMin obs lm beta none alpha beta).1) ∧
    (alpha < (mmScanMin tv lm ⊤ none).1 → (mmScanMin tv lm ⊤ none).1 < beta →
      abScanMin obs lm beta none alpha beta = mmScanMin tv lm ⊤ none) := by
  refine ⟨fun h1 => ?_, fun h1 => ?_, fun h1 h2 => ?_⟩
  · exact abScanMin_A hobs lm alpha beta none ⊤ none le_top hab h1
  · rw [abScanMin_B hobs lm alpha beta none hab
      (fun m hm => le_trans h1 (mmScanMin_le_mem lm ⊤ none m hm))]
  · exact abScanMin_C hobs lm alpha beta none ⊤ none le_top hab h1 h2

/-- The fail-soft/fail-hard window invariant relating the pure alpha-beta
search to pure minimax, by induction on depth: with `alpha < beta`, a
fail-low node reports at most alpha, a fail-high node at least beta, and a
node whose minimax value lies strictly inside the window returns exactly
the minimax (score, move) pair. -/
lemma keyP (g : Game σ) (ev : σ → ℤ) :
    ∀ (d : ℕ) (s : σ) (maxp : Bool) (alpha beta : Score), alpha < beta →
    ((mmA g ev (d + 1) s maxp).1 ≤ alpha →
      (abA g ev (d + 1) s alpha beta maxp).1 ≤ alpha) ∧
    (beta ≤ (mmA g ev (d + 1) s maxp).1 →
      beta ≤ (abA g ev (d + 1) s alpha beta maxp).1) ∧
    (alpha < (mmA g ev (d + 1) s maxp).1 →
      (mmA g ev (d + 1) s maxp).1 < beta →
      abA g ev (d + 1) s alpha beta maxp = mmA g ev (d + 1) s maxp) := by
  intro d
  induction d with
  | zero =>
    intro s maxp alpha beta hab
    by_cases hlm : g.get_legal_moves s = []
    · rw [mmA_terminal g ev 0 s maxp hlm, abA_terminal g ev 0 s alpha beta maxp hlm]
      cases maxp
      · refine ⟨fun h1 => ?_, fun _ => le_top, fun _ h2 => ?_⟩
        · exact absurd (lt_of_lt_of_le hab (le_trans le_top h1)) (lt_irrefl _)
        · exact absurd h2 not_top_lt
      · refine ⟨fun _ => bot_le, fun h1 => ?_, fun h1 _ => ?_⟩
        · exact absurd (lt_of_lt_of_le hab h1) not_lt_bot
        · exact absurd h1 not_lt_bot
    · rw [mmA_leaf g ev s maxp hlm, abA_leaf g ev s alpha beta maxp hlm]
      cases maxp
      · exact nodeMin (obsOK_exact _) (g.get_legal_moves s) alpha beta hab
      · exact nodeMax (obsOK_exact _) (g.get_legal_moves s) alpha beta hab
  | succ e ih =>
    intro s maxp alpha beta hab
    by_cases hlm : g.get_legal_moves s = []
    · rw [mmA_terminal g ev (e + 1) s maxp hlm,
        abA_terminal g ev (e + 1) s alpha beta maxp hlm]
      cases maxp
      · refine ⟨fun h1 => ?_, fun _ => le_top, fun _ h2 => ?_⟩
        · exact absurd (lt_of_lt_of_le hab (le_trans le_top h1)) (lt_irrefl _)
        · exact absurd h2 not_top_lt
      · refine ⟨fun _ => bot_le, fun h1 => ?_, fun h1 _ => ?_⟩
        · exact absurd (lt_of_lt_of_le hab h1) not_lt_bot
        · exact absurd h1 not_lt_bot
    · rw [mmA_interior g ev e s maxp hlm,
        abA_interior g ev e s alpha beta maxp hlm]
      cases maxp
      · have hobs : ObsOK
            (fun m => (mmA g ev (e + 1) (g.forecast_move s m) true).1)
            (fun m a b => (abA g ev (e + 1) (g.forecast_move s m) a b true).1) := by
          intro m a b habm
          refine ⟨(ih (g.forecast_move s m) true a b habm).1,
            (ih (g.forecast_move s m) true a b habm).2.1, fun h1 h2 => ?_⟩
          show (abA g ev (e + 1) (g.forecast_move s m) a b true).1 =
            (mmA g ev (e + 1) (g.forecast_move s m) true).1
          rw [(ih (g.forecast_move s m) true a b habm).2.2 h1 h2]
        exact nodeMin hobs (g.get_legal_moves s) alpha beta hab
      · have hobs : ObsOK
            (fun m => (mmA g ev (e + 1) (g.forecast_move s m) false).1)
            (fun m a b => (abA g ev (e + 1) (g.forecast_move s m) a b false).1) := by
          intro m a b habm
          refine ⟨(ih (g.forecast_move s m) false a b habm).1,
            (ih (g.forecast_move s m) false a b habm).2.1, fun h1 h2 => ?_⟩
          show (abA g ev (e + 1) (g.forecast_move s m) a b false).1 =
            (mmA g ev (e + 1) (g.forecast_move s m) false).1
          rw [(ih (g.forecast_move s m) false a b habm).2.2 h1 h2]
        exact nodeMax hobs (g.get_legal_moves s) alpha beta hab

/-- With the full window (-infinity, +infinity) the pure alpha-beta search
returns exactly the pure minimax (score, move) pair, at every depth. -/
lemma keyD (g : Game σ) (ev : σ → ℤ) :
    ∀ (d : ℕ) (s : σ) (maxp : Bool),
    abA g ev (d + 1) s ⊥ ⊤ maxp = mmA g ev (d + 1) s maxp := by
  intro d
  cases d with
  | zero =>
    intro s maxp
    by_cases hlm : g.get_legal_moves s = []
    · rw [mmA_terminal g ev 0 s maxp hlm, abA_terminal g ev 0 s ⊥ ⊤ maxp hlm]
    · rw [mmA_leaf g ev s maxp hlm, abA_leaf g ev s ⊥ ⊤ maxp hlm]
      cases maxp
      · exact abScanMin_D (obsOK_exact _) (g.get_legal_moves s) ⊤ none bot_lt_top
      · exact abScanMax_D (obsOK_exact _) (g.get_legal_moves s) ⊥ none bot_lt_top
  | succ e =>
    intro s maxp
    by_cases hlm : g.get_legal_moves s = []
    · rw [mmA_terminal g ev (e + 1) s maxp hlm,
        abA_terminal g ev (e + 1) s ⊥ ⊤ maxp hlm]
    · rw [mmA_interior g ev e s maxp hlm, abA_interior g ev e s ⊥ ⊤ maxp hlm]
      cases maxp
      · have hobs : ObsOK
            (fun m => (mmA g ev (e + 1) (g.forecast_move s m) true).1)
            (fun m a b => (abA g ev (e + 1) (g.forecast_move s m) a b true).1) := by
          intro m a b habm
          refine ⟨(keyP g ev e (g.forecast_move s m) true a b habm).1,
            (keyP g ev e (g.forecast_move s m) true a b habm).2.1,
            fun h1 h2 => ?_⟩
          show (abA g ev (e + 1) (g.forecast_move s m) a b true).1 =
            (mmA g ev (e + 1) (g.forecast_move s m) true).1
          rw [(keyP g ev e (g.forecast_move s m) true a b habm).2.2 h1 h2]
        exact abScanMin_D hobs (g.get_legal_moves s) ⊤ none bot_lt_top
      · have hobs : ObsOK
            (fun m => (mmA g ev (e + 1) (g.forecast_move s m) false).1)
            (fun m a b => (abA g ev (e + 1) (g.forecast_move s m) a b false).1) := by
          intro m a b habm
          refine ⟨(keyP g ev e (g.forecast_move s m) false a b habm).1,
            (keyP g ev e (g.forecast_move s m) false a b habm).2.1,
            fun h1 h2 => ?_⟩
          show (abA g ev (e + 1) (g.forecast_move s m) a b false).1 =
            (mmA g ev (e + 1) (g.forecast_move s m) false).1
          rw [(keyP g ev e (g.forecast_move s m) false a b habm).2.2 h1 h2]
        exact abScanMax_D hobs (g.get_legal_moves s) ⊥ none bot_lt_top

/-- Ample time: every clock query stays at or above the per-node floor, so
no timeout check ever trips inside the searchers. -/
def ample (p : CustomPlayer σ) : Prop :=
  ∀ k, p.MIN_TIME_LEFT ≤ p.time_left k

section AmpleBridge

variable {p : CustomPlayer σ} (g : Game σ)

lemma gmmMaxLoop_ample (hp : ample p) (game : σ) :
    ∀ (l : List Move) (b : Score) (bm : Option Move) (k : ℕ), ∃ k',
    gmmMaxLoop p g game l b bm k =
      (mmScanMax (fun m => Score.ofInt (p.score (g.forecast_move game m)))
        l b bm, k') := by
  intro l
  induction l with
  | nil => intro b bm k; exact ⟨k, rfl⟩
  | cons m rest ih =>
    intro b bm k
    simp only [gmmMaxLoop, mmScanMax]
    rw [if_neg (not_lt.mpr (hp k))]
    by_cases hs : b < Score.ofInt (p.score (g.forecast_move game m))
    · rw [if_pos hs, if_pos hs]
      exact ih _ _ (k + 1)
    · rw [if_neg hs, if_neg hs]
      exact ih b bm (k + 1)

lemma gmmMinLoop_ample (hp : ample p) (game : σ) :
    ∀ (l : List Move) (b : Score) (bm : Option Move) (k : ℕ), ∃ k',
    gmmMinLoop p g game l b bm k =
      (mmScanMin (fun m => Score.ofInt (p.score (g.forecast_move game m)))
        l b bm, k') := by
  intro l
  induction l with
  | nil => intro b bm k; exact ⟨k, rfl⟩
  | cons m rest ih =>
    intro b bm k
    simp only [gmmMinLoop, mmScanMin]
    rw [if_neg (not_lt.mpr (hp k))]
    by_cases hs : Score.ofInt (p.score (g.forecast_move game m)) < b
    · rw [if_pos hs, if_pos hs]
      exact ih _ _ (k + 1)
    · rw [if_neg hs, if_neg hs]
      exact ih b bm (k + 1)

lemma gabMaxLoop_ample (hp : ample p) (game : σ) :
    ∀ (l : List Move) (b : Score) (bm : Option Move) (alpha beta : Score)
    (k : ℕ), ∃ k',
    gabMaxLoop p g game l b bm alpha beta k =
      (abScanMax (fun m _ _ => Score.ofInt (p.score (g.forecast_move game m)))
        l b bm alpha beta, k') := by
  intro l
  induction l with
  | nil => intro b bm alpha beta k; exact ⟨k, rfl⟩
  | cons m rest ih =>
    intro b bm alpha beta k
    simp only [gabMaxLoop, abScanMax]
    rw [if_neg (not_lt.mpr (hp k))]
    by_cases hs : b < Score.ofInt (p.score (g.forecast_move game m))
    · rw [if_pos hs, if_pos hs]
      by_cases hc : beta ≤ max alpha (Score.ofInt (p.score (g.forecast_move game m)))
      · rw [if_pos hc, if_pos hc]
        exact ⟨k + 1, rfl⟩
      · rw [if_neg hc, if_neg hc]
        exact ih _ _ _ _ (k + 1)
    · rw [if_neg hs, if_neg hs]
      exact ih b bm alpha beta (k + 1)

lemma gabMinLoop_ample (hp : ample p) (game : σ) :
    ∀ (l : List Move) (b : Score) (bm : Option Move) (alpha beta : Score)
    (k : ℕ), ∃ k',
    gabMinLoop p g game l b bm alpha beta k =
      (abScanMin (fun m _ _ => Score.ofInt (p.score (g.forecast_move game m)))
        l b bm alpha beta, k') := by
  intro l
  induction l with
  | nil => intro b bm alpha beta k; exact ⟨k, rfl⟩
  | cons m rest ih =>
    intro b bm alpha beta k
    simp only [gabMinLoop, abScanMin]
    rw [if_neg (not_lt.mpr (hp k))]
    by_cases hs : Score.ofInt (p.score (g.forecast_move game m)) < b
    · rw [if_pos hs, if_pos hs]
      by_cases hc : min beta (Score.ofInt (p.score (g.forecast_move game m))) ≤ alpha
      · rw [if_pos hc, if_pos hc]
        exact ⟨k + 1, rfl⟩
      · rw [if_neg hc, if_neg hc]
        exact ih _ _ _ _ (k + 1)
    · rw [if_neg hs, if_neg hs]
      exact ih b bm alpha beta (k + 1)

lemma mmMaxLoopT_ample (hp : ample p) (game : σ)
    {rec : σ → ℕ → Option ((Score × Option Move) × ℕ)}
    {recPure : σ → Score × Option Move}
    (hrec : ∀ (s : σ) (k : ℕ), ∃ k', rec s k = some (recPure s, k')) :
    ∀ (l : List Move) (b : Score) (bm : Option Move) (k : ℕ), ∃ k',
    mmMaxLoopT p rec g game l b bm k =
      some (mmScanMax (fun m => (recPure (g.forecast_move game m)).1) l b bm,
        k') := by
  intro l
  induction l with
  | nil => intro b bm k; exact ⟨k, rfl⟩
  | cons m rest ih =>
    intro b bm k
    simp only [mmMaxLoopT, mmScanMax]
    rw [if_neg (not_lt.mpr (hp k))]
    obtain ⟨k1, hk1⟩ := hrec (g.forecast_move game m) (k + 1)
    rcases hrp : recPure (g.forecast_move game m) with ⟨v0, mv0⟩
    rw [hrp] at hk1
    simp only [hk1, hrp]
    by_cases hs : b < v0
    · rw [if_pos hs, if_pos hs]
      exact ih _ _ k1
    · rw [if_neg hs, if_neg hs]
      exact ih b bm k1

lemma mmMinLoopT_ample (hp : ample p) (game : σ)
    {rec : σ → ℕ → Option ((Score × Option Move) × ℕ)}
    {recPure : σ → Score × Option Move}
    (hrec : ∀ (s : σ) (k : ℕ), ∃ k', rec s k = some (recPure s, k')) :
    ∀ (l : List Move) (b : Score) (bm : Option Move) (k : ℕ), ∃ k',
    mmMinLoopT p rec g game l b bm k =
      some (mmScanMin (fun m => (recPure (g.forecast_move game m)).1) l b bm,
        k') := by
  intro l
  induction l with
  | nil => intro b bm k; exact ⟨k, rfl⟩
  | cons m rest ih =>
    intro b bm k
    simp only [mmMinLoopT, mmScanMin]
    rw [if_neg (not_lt.mpr (hp k))]
    obtain ⟨k1, hk1⟩ := hrec (g.forecast_move game m) (k + 1)
    rcases hrp : recPure (g.forecast_move game m) with ⟨v0, mv0⟩
    rw [hrp] at hk1
    simp only [hk1, hrp]
    by_cases hs : v0 < b
    · rw [if_pos hs, if_pos hs]
      exact ih _ _ k1
    · rw [if_neg hs, if_neg hs]
      exact ih b bm k1

lemma abMaxLoopT_ample (hp : ample p) (game : σ)
    {rec : σ → Score → Score → ℕ → Option ((Score × Option Move) × ℕ)}
    {recPure : σ → Score → Score → Score × Option Move}
    (hrec : ∀ (s : σ) (a b : Score) (k : ℕ), ∃ k',
      rec s a b k = some (recPure s a b, k')) :
    ∀ (l : List Move) (b : Score) (bm : Option Move) (alpha beta : Score)
    (k : ℕ), ∃ k',
    abMaxLoopT p rec g game l b bm alpha beta k =
      some (abScanMax
        (fun m a bb => (recPure (g.forecast_move game m) a bb).1)
        l b bm alpha beta, k') := by
  intro l
  induction l with
  | nil => intro b bm alpha beta k; exact ⟨k, rfl⟩
  | cons m rest ih =>
    intro b bm alpha beta k
    simp only [abMaxLoopT, abScanMax]
    obtain ⟨k1, hk1⟩ := hrec (g.forecast_move game m) alpha beta k
    rcases hrp : recPure (g.forecast_move game m) alpha beta with ⟨v0, mv0⟩
    rw [hrp] at hk1
    simp only [hk1, hrp]
    by_cases hs : b < v0
    · rw [if_pos hs, if_pos hs]
      by_cases hc : beta ≤ max alpha v0
      · rw [if_pos hc, if_pos hc]
        exact ⟨k1, rfl⟩
      · rw [if_neg hc, if_neg hc, if_neg (not_lt.mpr (hp k1))]
        exact ih _ _ _ _ (k1 + 1)
    · rw [if_neg hs, if_neg hs]
      exact ih b bm alpha beta k1

lemma abMinLoopT_ample (hp : ample p) (game : σ)
    {rec : σ → Score → Score → ℕ → Option ((Score × Option Move) × ℕ)}
    {recPure : σ → Score → Score → Score × Option Move}
    (hrec : ∀ (s : σ) (a b : Score) (k : ℕ), ∃ k',
      rec s a b k = some (recPure s a b, k')) :
    ∀ (l : List Move) (b : Score) (bm : Option Move) (alpha beta : Score)
    (k : ℕ), ∃ k',
    abMinLoopT p rec g game l b bm alpha beta k =
      some (abScanMin
        (fun m a bb => (recPure (g.forecast_move game m) a bb).1)
        l b bm alpha beta, k') := by
  intro l
  induction l with
  | nil => intro b bm alpha beta k; exact ⟨k, rfl⟩
  | cons m rest ih =>
    intro b bm alpha beta k
    simp only [abMinLoopT, abScanMin]
    obtain ⟨k1, hk1⟩ := hrec (g.forecast_move game m) alpha beta k
    rcases hrp : recPure (g.forecast_move game m) alpha beta with ⟨v0, mv0⟩
    rw [hrp] at hk1
    simp only [hk1, hrp]
    by_cases hs : v0 < b
    · rw [if_pos hs, if_pos hs]
      by_cases hc : min beta v0 ≤ alpha
      · rw [if_pos hc, if_pos hc]
        exact ⟨k1, rfl⟩
      · rw [if_neg hc, if_neg hc, if_neg (not_lt.mpr (hp k1))]
        exact ih _ _ _ _ (k1 + 1)
    · rw [if_neg hs, if_neg hs]
      exact ih b bm alpha beta k1

lemma minimaxFn_terminal (fuel : ℕ) (s : σ) (d : ℤ) (maxp : Bool) (k : ℕ)
    (h : g.get_legal_moves s = []) :
    minimaxFn p g (fuel + 1) s d maxp k =
      some ((if maxp then ((⊥ : Score), some (-1, -1))
             else ((⊤ : Score), some (-1, -1))), k) := by
  simp [minimaxFn, h]

lemma minimaxFn_depth1 (fuel : ℕ) (s : σ) (maxp : Bool) (k : ℕ)
    (h : ¬g.get_legal_moves s = []) :
    minimaxFn p g (fuel + 1) s 1 maxp k =
      some (if maxp then get_minimax_max_move p g s (g.get_legal_moves s) k
            else get_minimax_min_move p g s (g.get_legal_moves s) k) := by
  simp [minimaxFn, h]

lemma minimaxFn_interior (fuel : ℕ) (s : σ) (d : ℤ) (maxp : Bool) (k : ℕ)
    (h : ¬g.get_legal_moves s = []) (hd : ¬d = 1)
    (ht : ¬p.time_left k < p.MIN_TIME_LEFT) :
    minimaxFn p g (fuel + 1) s d maxp k =
      if maxp then
        mmMaxLoopT p (fun s' k' => minimaxFn p g fuel s' (d - 1) false k')
          g s (g.get_legal_moves s) ⊥ none (k + 1)
      else
        mmMinLoopT p (fun s' k' => minimaxFn p g fuel s' (d - 1) true k')
          g s (g.get_legal_moves s) ⊤ none (k + 1) := by
  simp [minimaxFn, h, hd, ht]

lemma alphabetaFn_terminal (fuel : ℕ) (s : σ) (d : ℤ) (alpha beta : Score)
    (maxp : Bool) (k : ℕ) (h : g.get_legal_moves s = []) :
    alphabetaFn p g (fuel + 1) s d alpha beta maxp k =
      some ((if maxp then ((⊥ : Score), some (-1, -1))
             else ((⊤ : Score), some (-1, -1))), k) := by
  simp [alphabetaFn, h]

lemma alphabetaFn_depth1 (fuel : ℕ) (s : σ) (alpha beta : Score) (maxp : Bool)
    (k : ℕ) (h : ¬g.get_legal_moves s = []) :
    alphabetaFn p g (fuel + 1) s 1 alpha beta maxp k =
      some (if maxp then
              get_alphabeta_max_move p g s (g.get_legal_moves s) alpha beta k
            else
              get_alphabeta_min_move p g s (g.get_legal_moves s) alpha beta k) := by
  simp [alphabetaFn, h]

lemma alphabetaFn_interior (fuel : ℕ) (s : σ) (d : ℤ) (alpha beta : Score)
    (maxp : Bool) (k : ℕ) (h : ¬g.get_legal_moves s = []) (hd : ¬d = 1)
    (ht : ¬p.time_left k < p.MIN_TIME_LEFT) :
    alphabetaFn p g (fuel + 1) s d alpha beta maxp k =
      if maxp then
        abMaxLoopT p
          (fun s' a b k' => alphabetaFn p g fuel s' (d - 1) a b false k')
          g s (g.get_legal_moves s) alpha none alpha beta (k + 1)
      else
        abMinLoopT p
          (fun s' a b k' => alphabetaFn p g fuel s' (d - 1) a b true k')
          g s (g.get_legal_moves s) beta none alpha beta (k + 1) := by
  simp [alphabetaFn, h, hd, ht]

/-- Under ample time the timed minimax search completes (with enough fuel)
and returns exactly the pure minimax result. -/
lemma minimaxFn_ample (hp : ample p) :
    ∀ (fuel : ℕ) (d : ℤ) (s : σ) (maxp : Bool) (k : ℕ), 1 ≤ d →
    d.toNat ≤ fuel → ∃ k',
    minimaxFn p g fuel s d maxp k = some (mmA g p.score d.toNat s maxp, k') := by
  intro fuel
  induction fuel with
  | zero => intro d s maxp k hd hf; omega
  | succ f ih =>
    intro d s maxp k hd hf
    obtain ⟨e, he⟩ : ∃ e, d.toNat = e + 1 := ⟨d.toNat - 1, by omega⟩
    by_cases hlm : g.get_legal_moves s = []
    · refine ⟨k, ?_⟩
      rw [minimaxFn_terminal g f s d maxp k hlm, he,
        mmA_terminal g p.score e s maxp hlm]
    · by_cases hdepth : d = 1
      · subst hdepth
        rw [minimaxFn_depth1 g f s maxp k hlm]
        have he0 : (1 : ℤ).toNat = 1 := rfl
        rw [he0, mmA_leaf g p.score s maxp hlm]
        cases maxp
        · obtain ⟨k', hk'⟩ :=
            gmmMinLoop_ample g hp s (g.get_legal_moves s) ⊤ none k
          exact ⟨k', by simp [get_minimax_min_move, hk']⟩
        · obtain ⟨k', hk'⟩ :=
            gmmMaxLoop_ample g hp s (g.get_legal_moves s) ⊥ none k
          exact ⟨k', by simp [get_minimax_max_move, hk']⟩
      · rw [minimaxFn_interior g f s d maxp k hlm hdepth (not_lt.mpr (hp k))]
        obtain ⟨e2, he2⟩ : ∃ e2, d.toNat = e2 + 2 := ⟨d.toNat - 2, by omega⟩
        have hd1 : (d - 1).toNat = e2 + 1 := by omega
        cases maxp
        · have hrec : ∀ (s' : σ) (k' : ℕ), ∃ k'',
              minimaxFn p g f s' (d - 1) true k' =
                some (mmA g p.score (e2 + 1) s' true, k'') := by
            intro s' k'
            obtain ⟨k'', hk''⟩ := ih (d - 1) s' true k' (by omega) (by omega)
            rw [hd1] at hk''
            exact ⟨k'', hk''⟩
          obtain ⟨k', hk'⟩ := mmMinLoopT_ample g hp s hrec
            (g.get_legal_moves s) ⊤ none (k + 1)
          refine ⟨k', ?_⟩
          rw [he2, mmA_interior g p.score e2 s false hlm]
          simpa using hk'
        · have hrec : ∀ (s' : σ) (k' : ℕ), ∃ k'',
              minimaxFn p g f s' (d - 1) false k' =
                some (mmA g p.score (e2 + 1) s' false, k'') := by
            intro s' k'
            obtain ⟨k'', hk''⟩ := ih (d - 1) s' false k' (by omega) (by omega)
            rw [hd1] at hk''
            exact ⟨k'', hk''⟩
          obtain ⟨k', hk'⟩ := mmMaxLoopT_ample g hp s hrec
            (g.get_legal_moves s) ⊥ none (k + 1)
          refine ⟨k', ?_⟩
          rw [he2, mmA_interior g p.score e2 s true hlm]
          simpa using hk'

/-- Under ample time the timed alpha-beta search completes (with enough
fuel) and returns exactly the pure alpha-beta result. -/
lemma alphabetaFn_ample (hp : ample p) :
    ∀ (fuel : ℕ) (d : ℤ) (s : σ) (alpha beta : Score) (maxp : Bool) (k : ℕ),
    1 ≤ d → d.toNat ≤ fuel → ∃ k',
    alphabetaFn p g fuel s d alpha beta maxp k =
      some (abA g p.score d.toNat s alpha beta maxp, k') := by
  intro fuel
  induction fuel with
  | zero => intro d s alpha beta maxp k hd hf; omega
  | succ f ih =>
    intro d s alpha beta maxp k hd hf
    obtain ⟨e, he⟩ : ∃ e, d.toNat = e + 1 := ⟨d.toNat - 1, by omega⟩
    by_cases hlm : g.get_legal_moves s = []
    · refine ⟨k, ?_⟩
      rw [alphabetaFn_terminal g f s d alpha beta maxp k hlm, he,
        abA_terminal g p.score e s alpha beta maxp hlm]
    · by_cases hdepth : d = 1
      · subst hdepth
        rw [alphabetaFn_depth1 g f s alpha beta maxp k hlm]
        have he0 : (1 : ℤ).toNat = 1 := rfl
        rw [he0, abA_leaf g p.score s alpha beta maxp hlm]
        cases maxp
        · obtain ⟨k', hk'⟩ :=
            gabMinLoop_ample g hp s (g.get_legal_moves s) beta none alpha beta k
          exact ⟨k', by simp [get_alphabeta_min_move, hk']⟩
        · obtain ⟨k', hk'⟩ :=
            gabMaxLoop_ample g hp s (g.get_legal_moves s) alpha none alpha beta k
          exact ⟨k', by simp [get_alphabeta_max_move, hk']⟩
      · rw [alphabetaFn_interior g f s d alpha beta maxp k hlm hdepth
          (not_lt.mpr (hp k))]
        obtain ⟨e2, he2⟩ : ∃ e2, d.toNat = e2 + 2 := ⟨d.toNat - 2, by omega⟩
        have hd1 : (d - 1).toNat = e2 + 1 := by omega
        cases maxp
        · have hrec : ∀ (s' : σ) (a b : Score) (k' : ℕ), ∃ k'',
              alphabetaFn p g f s' (d - 1) a b true k' =
                some (abA g p.score (e2 + 1) s' a b true, k'') := by
            intro s' a b k'
            obtain ⟨k'', hk''⟩ := ih (d - 1) s' a b true k' (by omega) (by omega)
            rw [hd1] at hk''
            exact ⟨k'', hk''⟩
          obtain ⟨k', hk'⟩ := abMinLoopT_ample g hp s hrec
            (g.get_legal_moves s) beta none alpha beta (k + 1)
          refine ⟨k', ?_⟩
          rw [he2, abA_interior g p.score e2 s alpha beta false hlm]
          simpa using hk'
        · have hrec : ∀ (s' : σ) (a b : Score) (k' : ℕ), ∃ k'',
              alphabetaFn p g f s' (d - 1) a b false k' =
                some (abA g p.score (e2 + 1) s' a b false, k'') := by
            intro s' a b k'
            obtain ⟨k'', hk''⟩ := ih (d - 1) s' a b false k' (by omega) (by omega)
            rw [hd1] at hk''
            exact ⟨k'', hk''⟩
          obtain ⟨k', hk'⟩ := abMaxLoopT_ample g hp s hrec
            (g.get_legal_moves s) alpha none alpha beta (k + 1)
          refine ⟨k', ?_⟩
          rw [he2, abA_interior g p.score e2 s alpha beta true hlm]
          simpa using hk'

end AmpleBridge

/-!
Concrete board, evaluator and player configurations used by the witness
and counterexample theorems. States are natural numbers; the move lists
and the evaluator are finite tables.
-/

/-- A small concrete game tree: state 0 has three moves leading to states
1, 2, 3; their children are states 4, 5/6, 7; deeper states are dead. -/
def WGame : Game ℕ where
  get_legal_moves s :=
    if s = 0 then [(0, 0), (1, 0), (2, 0)]
    else if s = 1 then [(0, 1)]
    else if s = 2 then [(0, 2), (1, 2)]
    else if s = 3 then [(0, 3)]
    else []
  forecast_move s m :=
    if s = 0 then (if m = (0, 0) then 1 else if m = (1, 0) then 2 else 3)
    else if s = 1 then 4
    else if s = 2 then (if m = (0, 2) then 5 else 6)
    else if s = 3 then 7
    else 99
  move_is_legal _ _ := true

/-- A player with an ample clock (1000 ms at every query). -/
def WPlayer : CustomPlayer ℕ where
  search_depth := 3
  iterative := true
  score s :=
    if s = 4 then 7 else if s = 5 then 3
    else if s = 6 then 9 else if s = 7 then 5 else (s : ℤ)
  method := "minimax"
  time_left _ := 1000
  TIMER_THRESHOLD := 25
  MIN_TIME_LEFT := 20

lemma WPlayer_ample : ample WPlayer := by
  intro k
  show (20 : ℤ) ≤ 1000
  decide

/-- C1: for every game state and every depth d ≥ 1, given ample remaining
time (no timeout check trips) and enough model fuel, the alpha-beta search
invoked with initial alpha = -infinity and beta = +infinity returns
exactly the same (score, move) pair as the unpruned minimax search at the
same depth with the same evaluator (only the clock-query counters may
differ). -/
theorem C1_alphabeta_equals_minimax {σ : Type} (p : CustomPlayer σ)
    (g : Game σ) (hp : ample p) (d : ℤ) (hd : 1 ≤ d) (fuel : ℕ)
    (hf : d.toNat ≤ fuel) (s : σ) (maxp : Bool) (k : ℕ) :
    ∃ r ka kb,
      alphabetaFn p g fuel s d ⊥ ⊤ maxp k = some (r, ka) ∧
      minimaxFn p g fuel s d maxp k = some (r, kb) := by
  obtain ⟨ka, hka⟩ := alphabetaFn_ample g hp fuel d s ⊥ ⊤ maxp k hd hf
  obtain ⟨kb, hkb⟩ := minimaxFn_ample g hp fuel d s maxp k hd hf
  obtain ⟨e, he⟩ : ∃ e, d.toNat = e + 1 := ⟨d.toNat - 1, by omega⟩
  rw [he] at hka hkb
  rw [keyD g p.score e s maxp] at hka
  exact ⟨mmA g p.score (e + 1) s maxp, ka, kb, hka, hkb⟩

section Totality

variable {p : CustomPlayer σ} (g : Game σ)

lemma minimaxFn_timeleaf (fuel : ℕ) (s : σ) (d : ℤ) (maxp : Bool) (k : ℕ)
    (h : ¬g.get_legal_moves s = []) (hd : ¬d = 1)
    (ht : p.time_left k < p.MIN_TIME_LEFT) :
    minimaxFn p g (fuel + 1) s d maxp k =
      some (if maxp then get_minimax_max_move p g s (g.get_legal_moves s) (k + 1)
            else get_minimax_min_move p g s (g.get_legal_moves s) (k + 1)) := by
  simp [minimaxFn, h, hd, ht]

lemma alphabetaFn_timeleaf (fuel : ℕ) (s : σ) (d : ℤ) (alpha beta : Score)
    (maxp : Bool) (k : ℕ) (h : ¬g.get_legal_moves s = []) (hd : ¬d = 1)
    (ht : p.time_left k < p.MIN_TIME_LEFT) :
    alphabetaFn p g (fuel + 1) s d alpha beta maxp k =
      some (if maxp then
              get_alphabeta_max_move p g s (g.get_legal_moves s) alpha beta (k + 1)
            else
              get_alphabeta_min_move p g s (g.get_legal_moves s) alpha beta (k + 1)) := by
  simp [alphabetaFn, h, hd, ht]

lemma gmmMaxLoop_k (game : σ) : ∀ (l : List Move) (b : Score)
    (bm : Option Move) (k : ℕ), k ≤ (gmmMaxLoop p g game l b bm k).2 := by
  intro l
  induction l with
  | nil => intro b bm k; exact le_refl k
  | cons m rest ih =>
    intro b bm k
    simp only [gmmMaxLoop]
    by_cases ht : p.time_left k < p.MIN_TIME_LEFT
    · rw [if_pos ht]; exact Nat.le_succ k
    · rw [if_neg ht]
      by_cases hs : b < Score.ofInt (p.score (g.forecast_move game m))
      · rw [if_pos hs]
        exact le_trans (Nat.le_succ k) (ih _ _ (k + 1))
      · rw [if_neg hs]
        exact le_trans (Nat.le_succ k) (ih b bm (k + 1))

lemma gmmMinLoop_k (game : σ) : ∀ (l : List Move) (b : Score)
    (bm : Option Move) (k : ℕ), k ≤ (gmmMinLoop p g game l b bm k).2 := by
  intro l
  induction l with
  | nil => intro b bm k; exact le_refl k
  | cons m rest ih =>
    intro b bm k
    simp only [gmmMinLoop]
    by_cases ht : p.time_left k < p.MIN_TIME_LEFT
    · rw [if_pos ht]; exact Nat.le_succ k
    · rw [if_neg ht]
      by_cases hs : Score.ofInt (p.score (g.forecast_move game m)) < b
      · rw [if_pos hs]
        exact le_trans (Nat.le_succ k) (ih _ _ (k + 1))
      · rw [if_neg hs]
        exact le_trans (Nat.le_succ k) (ih b bm (k + 1))

lemma gabMaxLoop_k (game : σ) : ∀ (l : List Move) (b : Score)
    (bm : Option Move) (alpha beta : Score) (k : ℕ),
    k ≤ (gabMaxLoop p g game l b bm alpha beta k).2 := by
  intro l
  induction l with
  | nil => intro b bm alpha beta k; exact le_refl k
  | cons m rest ih =>
    intro b bm alpha beta k
    simp only [gabMaxLoop]
    by_cases ht : p.time_left k < p.MIN_TIME_LEFT
    · rw [if_pos ht]; exact Nat.le_succ k
    · rw [if_neg ht]
      by_cases hs : b < Score.ofInt (p.score (g.forecast_move game m))
      · rw [if_pos hs]
        by_cases hc : beta ≤ max alpha (Score.ofInt (p.score (g.forecast_move game m)))
        · rw [if_pos hc]; exact Nat.le_succ k
        · rw [if_neg hc]
          exact le_trans (Nat.le_succ k) (ih _ _ _ _ (k + 1))
      · rw [if_neg hs]
        exact le_trans (Nat.le_succ k) (ih b bm alpha beta (k + 1))

lemma gabMinLoop_k (game : σ) : ∀ (l : List Move) (b : Score)
    (bm : Option Move) (alpha beta : Score) (k : ℕ),
    k ≤ (gabMinLoop p g game l b bm alpha beta k).2 := by
  intro l
  induction l with
  | nil => intro b bm alpha beta k; exact le_refl k
  | cons m rest ih =>
    intro b bm alpha beta k
    simp only [gabMinLoop]
    by_cases ht : p.time_left k < p.MIN_TIME_LEFT
    · rw [if_pos ht]; exact Nat.le_succ k
    · rw [if_neg ht]
      by_cases hs : Score.ofInt (p.score (g.forecast_move game m)) < b
      · rw [if_pos hs]
        by_cases hc : min beta (Score.ofInt (p.score (g.forecast_move game m))) ≤ alpha
        · rw [if_pos hc]; exact Nat.le_succ k
        · rw [if_neg hc]
          exact le_trans (Nat.le_succ k) (ih _ _ _ _ (k + 1))
      · rw [if_neg hs]
        exact le_trans (Nat.le_succ k) (ih b bm alpha beta (k + 1))

lemma mmMaxLoopT_total (game : σ)
    {rec : σ → ℕ → Option ((Score × Option Move) × ℕ)}
    (hrec : ∀ (s : σ) (k : ℕ), ∃ r k', rec s k = some (r, k') ∧ k ≤ k') :
    ∀ (l : List Move) (b : Score) (bm : Option Move) (k : ℕ),
    ∃ r k', mmMaxLoopT p rec g game l b bm k = some (r, k') ∧ k ≤ k' := by
  intro l
  induction l with
  | nil => intro b bm k; exact ⟨(b, bm), k, rfl, le_refl k⟩
  | cons m rest ih =>
    intro b bm k
    simp only [mmMaxLoopT]
    by_cases ht : p.time_left k < p.MIN_TIME_LEFT
    · rw [if_pos ht]; exact ⟨(b, bm), k + 1, rfl, Nat.le_succ k⟩
    · rw [if_neg ht]
      obtain ⟨⟨v0, mv0⟩, k1, h1, hk1⟩ := hrec (g.forecast_move game m) (k + 1)
      simp only [h1]
      by_cases hs : b < v0
      · rw [if_pos hs]
        obtain ⟨r, k', h2, hk2⟩ := ih v0 (some m) k1
        exact ⟨r, k', h2, le_trans (Nat.le_succ k) (le_trans hk1 hk2)⟩
      · rw [if_neg hs]
        obtain ⟨r, k', h2, hk2⟩ := ih b bm k1
        exact ⟨r, k', h2, le_trans (Nat.le_succ k) (le_trans hk1 hk2)⟩

lemma mmMinLoopT_total (game : σ)
    {rec : σ → ℕ → Option ((Score × Option Move) × ℕ)}
    (hrec : ∀ (s : σ) (k : ℕ), ∃ r k', rec s k = some (r, k') ∧ k ≤ k') :
    ∀ (l : List Move) (b : Score) (bm : Option Move) (k : ℕ),
    ∃ r k', mmMinLoopT p rec g game l b bm k = some (r, k') ∧ k ≤ k' := by
  intro l
  induction l with
  | nil => intro b bm k; exact ⟨(b, bm), k, rfl, le_refl k⟩
  | cons m rest ih =>
    intro b bm k
    simp only [mmMinLoopT]
    by_cases ht : p.time_left k < p.MIN_TIME_LEFT
    · rw [if_pos ht]; exact ⟨(b, bm), k + 1, rfl, Nat.le_succ k⟩
    · rw [if_neg ht]
      obtain ⟨⟨v0, mv0⟩, k1, h1, hk1⟩ := hrec (g.forecast_move game m) (k + 1)
      simp only [h1]
      by_cases hs : v0 < b
      · rw [if_pos hs]
        obtain ⟨r, k', h2, hk2⟩ := ih v0 (some m) k1
        exact ⟨r, k', h2, le_trans (Nat.le_succ k) (le_trans hk1 hk2)⟩
      · rw [if_neg hs]
        obtain ⟨r, k', h2, hk2⟩ := ih b bm k1
        exact ⟨r, k', h2, le_trans (Nat.le_succ k) (le_trans hk1 hk2)⟩

lemma abMaxLoopT_total (game : σ)
    {rec : σ → Score → Score → ℕ → Option ((Score × Option Move) × ℕ)}
    (hrec : ∀ (s : σ) (a b : Score) (k : ℕ), ∃ r k',
      rec s a b k = some (r, k') ∧ k ≤ k') :
    ∀ (l : List Move) (b : Score) (bm : Option Move) (alpha beta : Score)
    (k : ℕ), ∃ r k',
    abMaxLoopT p rec g game l b bm alpha beta k = some (r, k') ∧ k ≤ k' := by
  intro l
  induction l with
  | nil => intro b bm alpha beta k; exact ⟨(b, bm), k, rfl, le_refl k⟩
  | cons m rest ih =>
    intro b bm alpha beta k
    simp only [abMaxLoopT]
    obtain ⟨⟨v0, mv0⟩, k1, h1, hk1⟩ := hrec (g.forecast_move game m) alpha beta k
    simp only [h1]
    by_cases hs : b < v0
    · rw [if_pos hs]
      by_cases hc : beta ≤ max alpha v0
      · rw [if_pos hc]; exact ⟨(v0, some m), k1, rfl, hk1⟩
      · rw [if_neg hc]
        by_cases ht : p.time_left k1 < p.MIN_TIME_LEFT
        · rw [if_pos ht]
          exact ⟨(v0, some m), k1 + 1, rfl, le_trans hk1 (Nat.le_succ k1)⟩
        · rw [if_neg ht]
          obtain ⟨r, k', h2, hk2⟩ := ih v0 (some m) (max alpha v0) beta (k1 + 1)
          exact ⟨r, k', h2, le_trans hk1 (le_trans (Nat.le_succ k1) hk2)⟩
    · rw [if_neg hs]
      obtain ⟨r, k', h2, hk2⟩ := ih b bm alpha beta k1
      exact ⟨r, k', h2, le_trans hk1 hk2⟩

lemma abMinLoopT_total (game : σ)
    {rec : σ → Score → Score → ℕ → Option ((Score × Option Move) × ℕ)}
    (hrec : ∀ (s : σ) (a b : Score) (k : ℕ), ∃ r k',
      rec s a b k = some (r, k') ∧ k ≤ k') :
    ∀ (l : List Move) (b : Score) (bm : Option Move) (alpha beta : Score)
    (k : ℕ), ∃ r k',
    abMinLoopT p rec g game l b bm alpha beta k = some (r, k') ∧ k ≤ k' := by
  intro l
  induction l with
  | nil => intro b bm alpha beta k; exact ⟨(b, bm), k, rfl, le_refl k⟩
  | cons m rest ih =>
    intro b bm alpha beta k
    simp only [abMinLoopT]
    obtain ⟨⟨v0, mv0⟩, k1, h1, hk1⟩ := hrec (g.forecast_move game m) alpha beta k
    simp only [h1]
    by_cases hs : v0 < b
    · rw [if_pos hs]
      by_cases hc : min beta v0 ≤ alpha
      · rw [if_pos hc]; exact ⟨(v0, some m), k1, rfl, hk1⟩
      · rw [if_neg hc]
        by_cases ht : p.time_left k1 < p.MIN_TIME_LEFT
        · rw [if_pos ht]
          exact ⟨(v0, some m), k1 + 1, rfl, le_trans hk1 (Nat.le_succ k1)⟩
        · rw [if_neg ht]
          obtain ⟨r, k', h2, hk2⟩ := ih v0 (some m) alpha (min beta v0) (k1 + 1)
          exact ⟨r, k', h2, le_trans hk1 (le_trans (Nat.le_succ k1) hk2)⟩
    · rw [if_neg hs]
      obtain ⟨r, k', h2, hk2⟩ := ih b bm alpha beta k1
      exact ⟨r, k', h2, le_trans hk1 hk2⟩

/-- The timed minimax search always terminates with a value once the fuel
covers the requested depth, for any clock oracle, and its query counter
never decreases. -/
lemma minimaxFn_total :
    ∀ (fuel : ℕ) (d : ℤ) (s : σ) (maxp : Bool) (k : ℕ), 1 ≤ d →
    d.toNat ≤ fuel → ∃ r k',
    minimaxFn p g fuel s d maxp k = some (r, k') ∧ k ≤ k' := by
  intro fuel
  induction fuel with
  | zero => intro d s maxp k hd hf; omega
  | succ f ih =>
    intro d s maxp k hd hf
    by_cases hlm : g.get_legal_moves s = []
    · exact ⟨_, k, minimaxFn_terminal g f s d maxp k hlm, le_refl k⟩
    · by_cases hdepth : d = 1
      · subst hdepth
        rw [minimaxFn_depth1 g f s maxp k hlm]
        cases maxp
        · refine ⟨(gmmMinLoop p g s (g.get_legal_moves s) ⊤ none k).1,
            (gmmMinLoop p g s (g.get_legal_moves s) ⊤ none k).2, ?_,
            gmmMinLoop_k g s (g.get_legal_moves s) ⊤ none k⟩
          simp [get_minimax_min_move]
        · refine ⟨(gmmMaxLoop p g s (g.get_legal_moves s) ⊥ none k).1,
            (gmmMaxLoop p g s (g.get_legal_moves s) ⊥ none k).2, ?_,
            gmmMaxLoop_k g s (g.get_legal_moves s) ⊥ none k⟩
          simp [get_minimax_max_move]
      · by_cases ht : p.time_left k < p.MIN_TIME_LEFT
        · rw [minimaxFn_timeleaf g f s d maxp k hlm hdepth ht]
          cases maxp
          · refine ⟨(gmmMinLoop p g s (g.get_legal_moves s) ⊤ none (k + 1)).1,
              (gmmMinLoop p g s (g.get_legal_moves s) ⊤ none (k + 1)).2, ?_,
              le_trans (Nat.le_succ k)
                (gmmMinLoop_k g s (g.get_legal_moves s) ⊤ none (k + 1))⟩
            simp [get_minimax_min_move]
          · refine ⟨(gmmMaxLoop p g s (g.get_legal_moves s) ⊥ none (k + 1)).1,
              (gmmMaxLoop p g s (g.get_legal_moves s) ⊥ none (k + 1)).2, ?_,
              le_trans (Nat.le_succ k)
                (gmmMaxLoop_k g s (g.get_legal_moves s) ⊥ none (k + 1))⟩
            simp [get_minimax_max_move]
        · rw [minimaxFn_interior g f s d maxp k hlm hdepth ht]
          have hrec1 : ∀ (s' : σ) (k' : ℕ), ∃ r k'',
              minimaxFn p g f s' (d - 1) true k' = some (r, k'') ∧ k' ≤ k'' :=
            fun s' k' => ih (d - 1) s' true k' (by omega) (by omega)
          have hrec0 : ∀ (s' : σ) (k' : ℕ), ∃ r k'',
              minimaxFn p g f s' (d - 1) false k' = some (r, k'') ∧ k' ≤ k'' :=
            fun s' k' => ih (d - 1) s' false k' (by omega) (by omega)
          cases maxp
          · obtain ⟨r, k', h2, hk2⟩ := mmMinLoopT_total g s hrec1
              (g.get_legal_moves s) ⊤ none (k + 1)
            exact ⟨r, k', by simpa using h2, le_trans (Nat.le_succ k) hk2⟩
          · obtain ⟨r, k', h2, hk2⟩ := mmMaxLoopT_total g s hrec0
              (g.get_legal_moves s) ⊥ none (k + 1)
            exact ⟨r, k', by simpa using h2, le_trans (Nat.le_succ k) hk2⟩

/-- The timed alpha-beta search always terminates with a value once the
fuel covers the requested depth, for any clock oracle. -/
lemma alphabetaFn_total :
    ∀ (fuel : ℕ) (d : ℤ) (s : σ) (alpha beta : Score) (maxp : Bool) (k : ℕ),
    1 ≤ d → d.toNat ≤ fuel → ∃ r k',
    alphabetaFn p g fuel s d alpha beta maxp k = some (r, k') ∧ k ≤ k' := by
  intro fuel
  induction fuel with
  | zero => intro d s alpha beta maxp k hd hf; omega
  | succ f ih =>
    intro d s alpha beta maxp k hd hf
    by_cases hlm : g.get_legal_moves s = []
    · exact ⟨_, k, alphabetaFn_terminal g f s d alpha beta maxp k hlm, le_refl k⟩
    · by_cases hdepth : d = 1
      · subst hdepth
        rw [alphabetaFn_depth1 g f s alpha beta maxp k hlm]
        cases maxp
        · refine ⟨(gabMinLoop p g s (g.get_legal_moves s) beta none alpha beta k).1,
            (gabMinLoop p g s (g.get_legal_moves s) beta none alpha beta k).2, ?_,
            gabMinLoop_k g s (g.get_legal_moves s) beta none alpha beta k⟩
          simp [get_alphabeta_min_move]
        · refine ⟨(gabMaxLoop p g s (g.get_legal_moves s) alpha none alpha beta k).1,
            (gabMaxLoop p g s (g.get_legal_moves s) alpha none alpha beta k).2, ?_,
            gabMaxLoop_k g s (g.get_legal_moves s) alpha none alpha beta k⟩
          simp [get_alphabeta_max_move]
      · by_cases ht : p.time_left k < p.MIN_TIME_LEFT
        · rw [alphabetaFn_timeleaf g f s d alpha beta maxp k hlm hdepth ht]
          cases maxp
          · refine ⟨(gabMinLoop p g s (g.get_legal_moves s) beta none alpha beta (k + 1)).1,
              (gabMinLoop p g s (g.get_legal_moves s) beta none alpha beta (k + 1)).2, ?_,
              le_trans (Nat.le_succ k)
                (gabMinLoop_k g s (g.get_legal_moves s) beta none alpha beta (k + 1))⟩
            simp [get_alphabeta_min_move]
          · refine ⟨(gabMaxLoop p g s (g.get_legal_moves s) alpha none alpha beta (k + 1)).1,
              (gabMaxLoop p g s (g.get_legal_moves s) alpha none alpha beta (k + 1)).2, ?_,
              le_trans (Nat.le_succ k)
                (gabMaxLoop_k g s (g.get_legal_moves s) alpha none alpha beta (k + 1))⟩
            simp [get_alphabeta_max_move]
        · rw [alphabetaFn_interior g f s d alpha beta maxp k hlm hdepth ht]
          have hrec1 : ∀ (s' : σ) (a b : Score) (k' : ℕ), ∃ r k'',
              alphabetaFn p g f s' (d - 1) a b true k' = some (r, k'') ∧ k' ≤ k'' :=
            fun s' a b k' => ih (d - 1) s' a b true k' (by omega) (by omega)
          have hrec0 : ∀ (s' : σ) (a b : Score) (k' : ℕ), ∃ r k'',
              alphabetaFn p g f s' (d - 1) a b false k' = some (r, k'') ∧ k' ≤ k'' :=
            fun s' a b k' => ih (d - 1) s' a b false k' (by omega) (by omega)
          cases maxp
          · obtain ⟨r, k', h2, hk2⟩ := abMinLoopT_total g s hrec1
              (g.get_legal_moves s) beta none alpha beta (k + 1)
            exact ⟨r, k', by simpa using h2, le_trans (Nat.le_succ k) hk2⟩
          · obtain ⟨r, k', h2, hk2⟩ := abMaxLoopT_total g s hrec0
              (g.get_legal_moves s) alpha none alpha beta (k + 1)
            exact ⟨r, k', by simpa using h2, le_trans (Nat.le_succ k) hk2⟩

/-- The iterative deepening driver terminates once the clock oracle is
permanently below the turn threshold from query index N on, provided the
searches it launches always return with a non-decreasing counter. -/
lemma idLoop_term (search : σ → ℤ → ℕ → Option ((Score × Option Move) × ℕ))
    (game : σ) (N : ℕ)
    (hN : ∀ j, N ≤ j → p.time_left j < p.TIMER_THRESHOLD)
    (hsearch : ∀ (d : ℤ) (k : ℕ), 1 ≤ d → d.toNat ≤ N + 1 → ∃ r k',
      search game d k = some (r, k') ∧ k ≤ k') :
    ∀ (f : ℕ) (d : ℤ) (k : ℕ) (best : Option Score × Option Move),
    1 ≤ d → d.toNat ≤ k + 1 → N + 1 ≤ k + (f + 1) →
    ∃ res k', idLoop p search game (f + 1) best d k = some (res, k') := by
  intro f
  induction f with
  | zero =>
    intro d k best _ _ hNk
    have hk : N ≤ k := by omega
    simp only [idLoop]
    rw [if_pos (hN k hk)]
    exact ⟨best, k + 1, rfl⟩
  | succ f2 ih =>
    intro d k best hd hdk hNk
    simp only [idLoop]
    by_cases ht : p.time_left k < p.TIMER_THRESHOLD
    · rw [if_pos ht]; exact ⟨best, k + 1, rfl⟩
    · rw [if_neg ht]
      have hkN : k < N := by
        by_contra hc
        exact ht (hN k (by omega))
      obtain ⟨⟨sv, sm⟩, k1, hs, hk1⟩ := hsearch d (k + 1) hd (by omega)
      rw [hs]
      exact ih (d + 1) k1 (some sv, sm) (by omega) (by omega) (by omega)

end Totality

section Methods

variable {p : CustomPlayer σ} (g : Game σ)

/-- The iterative branch of CustomPlayer.minimax terminates with a normal
`Except.ok` result as soon as the clock oracle permanently drops below the
turn threshold from query N on and the fuel covers N + 1. -/
lemma cpminimax_iter_ok (hit : p.iterative = true) (N : ℕ)
    (hN : ∀ j, N ≤ j → p.time_left j < p.TIMER_THRESHOLD) (fuel : ℕ)
    (hfuel : N + 1 ≤ fuel) (game : σ) (d : ℤ) (maxp : Bool) :
    ∃ best k', CustomPlayer.minimax p g fuel game d maxp 0 =
      some (Except.ok best, k') := by
  obtain ⟨f, hf⟩ : ∃ f, fuel = f + 1 := ⟨fuel - 1, by omega⟩
  subst hf
  have hsearch : ∀ (d' : ℤ) (k : ℕ), 1 ≤ d' → d'.toNat ≤ N + 1 → ∃ r k',
      minimaxFn p g (f + 1) game d' maxp k = some (r, k') ∧ k ≤ k' :=
    fun d' k hd' hdn =>
      minimaxFn_total g (f + 1) d' game maxp k hd' (by omega)
  obtain ⟨res, k', hidl⟩ := idLoop_term
    (fun s d' k'' => minimaxFn p g (f + 1) s d' maxp k'') game N hN hsearch
    f 1 0 (none, none) (by norm_num) (by norm_num) (by omega)
  refine ⟨res, k', ?_⟩
  simp only [CustomPlayer.minimax, hit, hidl]
  simp

/-- The iterative branch of CustomPlayer.alphabeta terminates with a
normal `Except.ok` result under the same conditions. -/
lemma cpalphabeta_iter_ok (hit : p.iterative = true) (N : ℕ)
    (hN : ∀ j, N ≤ j → p.time_left j < p.TIMER_THRESHOLD) (fuel : ℕ)
    (hfuel : N + 1 ≤ fuel) (game : σ) (d : ℤ) (alpha beta : Score)
    (maxp : Bool) :
    ∃ best k', CustomPlayer.alphabeta p g fuel game d alpha beta maxp 0 =
      some (Except.ok best, k') := by
  obtain ⟨f, hf⟩ : ∃ f, fuel = f + 1 := ⟨fuel - 1, by omega⟩
  subst hf
  have hsearch : ∀ (d' : ℤ) (k : ℕ), 1 ≤ d' → d'.toNat ≤ N + 1 → ∃ r k',
      alphabetaFn p g (f + 1) game d' alpha beta maxp k = some (r, k') ∧
        k ≤ k' :=
    fun d' k hd' hdn =>
      alphabetaFn_total g (f + 1) d' game alpha beta maxp k hd' (by omega)
  obtain ⟨res, k', hidl⟩ := idLoop_term
    (fun s d' k'' => alphabetaFn p g (f + 1) s d' alpha beta maxp k'') game N
    hN hsearch f 1 0 (none, none) (by norm_num) (by norm_num) (by omega)
  refine ⟨res, k', ?_⟩
  simp only [CustomPlayer.alphabeta, hit, hidl]
  simp

/-- In iterative mode CustomPlayer.minimax never raises: any value it
returns is an `Except.ok`. -/
lemma cpminimax_iter_no_error (hit : p.iterative = true) (fuel k : ℕ)
    (game : σ) (d : ℤ) (maxp : Bool) (r : Except Unit (Option Score × Option Move))
    (k' : ℕ) (h : CustomPlayer.minimax p g fuel game d maxp k = some (r, k')) :
    ∃ best, r = Except.ok best := by
  simp only [CustomPlayer.minimax, hit] at h
  simp at h
  rcases hidl : idLoop p (fun s d' k'' => minimaxFn p g fuel s d' maxp k'')
      game fuel (none, none) 1 k with _ | ⟨best, k2⟩
  · rw [hidl] at h
    cases h
  · rw [hidl] at h
    simp only [Option.some.injEq, Prod.mk.injEq] at h
    exact ⟨best, h.1.symm⟩

/-- In iterative mode CustomPlayer.alphabeta never raises. -/
lemma cpalphabeta_iter_no_error (hit : p.iterative = true) (fuel k : ℕ)
    (game : σ) (d : ℤ) (alpha beta : Score) (maxp : Bool)
    (r : Except Unit (Option Score × Option Move)) (k' : ℕ)
    (h : CustomPlayer.alphabeta p g fuel game d alpha beta maxp k =
      some (r, k')) :
    ∃ best, r = Except.ok best := by
  simp only [CustomPlayer.alphabeta, hit] at h
  simp at h
  rcases hidl : idLoop p
      (fun s d' k'' => alphabetaFn p g fuel s d' alpha beta maxp k'')
      game fuel (none, none) 1 k with _ | ⟨best, k2⟩
  · rw [hidl] at h
    cases h
  · rw [hidl] at h
    simp only [Option.some.injEq, Prod.mk.injEq] at h
    exact ⟨best, h.1.symm⟩

end Methods

/-- Witness for C1 at a concrete game, depth 2, ample clock. -/
theorem C1_witness :
    ∃ r ka kb,
      alphabetaFn WPlayer WGame 2 0 2 ⊥ ⊤ true 0 = some (r, ka) ∧
      minimaxFn WPlayer WGame 2 0 2 true 0 = some (r, kb) :=
  C1_alphabeta_equals_minimax WPlayer WGame WPlayer_ample 2 (by norm_num) 2
    (by norm_num) 0 true 0

/-- A one-move root whose single child is a dead state. -/
def OneMoveGame : Game ℕ where
  get_legal_moves s := if s = 0 then [(0, 0)] else []
  forecast_move _ _ := 1
  move_is_legal _ _ := true

/-- Clock permanently at 0 ms: every threshold check trips. -/
def LowPlayer : CustomPlayer ℕ := { WPlayer with time_left := fun _ => 0 }

/-- Clock ample at the very first query, exhausted afterwards. -/
def LatePlayer : CustomPlayer ℕ :=
  { WPlayer with time_left := fun k => if k = 0 then 100 else 0 }

/-- Clock already past the deadline (negative remaining time). -/
def NegPlayer : CustomPlayer ℕ := { WPlayer with time_left := fun _ => -5 }

/-- Fixed-depth (non-iterative) player with an exhausted clock. -/
def NonIterPlayer : CustomPlayer ℕ :=
  { WPlayer with iterative := false, time_left := fun _ => 0 }

/-- A board on which the center cell is never a legal move. -/
def NoCenterGame : Game ℕ := { WGame with move_is_legal := fun _ _ => false }

/-- A 49-element legal-move list (first ply of a 7x7 board). -/
def L49 : List Move := (List.range 49).map (fun i => ((i : ℤ), 0))

/-- A 48-element legal-move list (second ply of a 7x7 board). -/
def L48 : List Move := (List.range 48).map (fun i => ((i : ℤ), 0))

/-- C2 (amended): for every deadline oracle that is permanently below the
per-turn threshold from some query index N on, iterative get_move
terminates (with fuel at least N + 1) and returns a normal move value
rather than an error — the driver exits at the first top-of-loop query
below TIMER_THRESHOLD. -/
theorem C2_get_move_terminates {σ : Type} (p : CustomPlayer σ) (g : Game σ)
    (game : σ) (lm : List Move) (fuel N : ℕ) (hit : p.iterative = true)
    (hN : ∀ j, N ≤ j → p.time_left j < p.TIMER_THRESHOLD)
    (hfuel : N + 1 ≤ fuel) :
    ∃ mv k', get_move p g fuel game lm 0 = some (Except.ok mv, k') := by
  by_cases h0 : lm = []
  · exact ⟨some (-1, -1), 0, by simp [get_move, h0]⟩
  · by_cases h49 : lm.length = 49
    · exact ⟨some (4, 4), 0, by simp [get_move, h0, h49]⟩
    · by_cases h48 : lm.length = 48
      · cases hleg : g.move_is_legal game (4, 4)
        · exact ⟨some (0, 0), 0, by simp [get_move, h0, h49, h48, hleg]⟩
        · exact ⟨some (4, 4), 0, by simp [get_move, h0, h49, h48, hleg]⟩
      · by_cases hmm0 : p.method = "minimax"
        · obtain ⟨best, k', h⟩ :=
            cpminimax_iter_ok g hit N hN fuel hfuel game p.search_depth true
          rcases best with ⟨bs, bm⟩
          exact ⟨bm, k', by simp [get_move, h0, h49, h48, hmm0, h]⟩
        · by_cases hab : p.method = "alphabeta"
          · obtain ⟨best, k', h⟩ := cpalphabeta_iter_ok g hit N hN fuel hfuel
              game p.search_depth (Score.ofInt 1) ⊤ true
            rcases best with ⟨bs, bm⟩
            exact ⟨bm, k', by simp [get_move, h0, h49, h48, hmm0, hab, h]⟩
          · exact ⟨none, 0, by simp [get_move, h0, h49, h48, hmm0, hab]⟩

/-- Witness for C2 (amended): an all-zero clock, one legal move. -/
theorem C2_witness :
    ∃ mv k', get_move LowPlayer OneMoveGame 1 0 [(0, 0)] 0 =
      some (Except.ok mv, k') :=
  C2_get_move_terminates LowPlayer OneMoveGame 0 [(0, 0)] 1 0 rfl
    (fun j _ => by show (0 : ℤ) < 25; decide) (by norm_num)

/-- C2 counterexample: with a deadline oracle already past zero, the only
internal check before returning observes a negative remaining time —
below the per-turn threshold and below zero — and get_move still returns
normally; the run does not return strictly before the oracle's zero
crossing and the last check leaves no threshold-sized margin. -/
theorem C2_counterexample :
    get_move NegPlayer OneMoveGame 5 0 [(0, 0)] 0 =
      some (Except.ok none, 1) ∧
    NegPlayer.time_left 0 < 0 ∧
    NegPlayer.time_left 0 < NegPlayer.TIMER_THRESHOLD :=
  ⟨rfl, by decide, by decide⟩

/-- C3: on a state whose side to move has no legal moves, both module-level
searchers return score -infinity with sentinel move (-1, -1) when
maximizing and +infinity with the sentinel when minimizing, at any depth,
window and clock, consuming no clock query. -/
theorem C3_terminal_extremes {σ : Type} (p : CustomPlayer σ) (g : Game σ)
    (s : σ) (h : g.get_legal_moves s = []) (fuel : ℕ) (d : ℤ)
    (alpha beta : Score) (maxp : Bool) (k : ℕ) :
    minimaxFn p g (fuel + 1) s d maxp k =
      some ((if maxp then ((⊥ : Score), some (-1, -1))
             else ((⊤ : Score), some (-1, -1))), k) ∧
    alphabetaFn p g (fuel + 1) s d alpha beta maxp k =
      some ((if maxp then ((⊥ : Score), some (-1, -1))
             else ((⊤ : Score), some (-1, -1))), k) :=
  ⟨minimaxFn_terminal g fuel s d maxp k h,
   alphabetaFn_terminal g fuel s d alpha beta maxp k h⟩

/-- Witness for C3: state 4 of the concrete game is terminal. -/
theorem C3_witness :
    minimaxFn WPlayer WGame 1 4 3 true 0 =
      some (((⊥ : Score), some (-1, -1)), 0) ∧
    alphabetaFn WPlayer WGame 1 4 3 ⊥ ⊤ false 0 =
      some (((⊤ : Score), some (-1, -1)), 0) := by
  have h1 := C3_terminal_extremes WPlayer WGame 4 rfl 0 3 ⊥ ⊤ true 0
  have h2 := C3_terminal_extremes WPlayer WGame 4 rfl 0 3 ⊥ ⊤ false 0
  exact ⟨by simpa using h1.1, by simpa using h2.2⟩

/-- C5 counterexample: an interior alpha-beta node does not query the
clock before descending into a move. With a clock that is ample at the
node's entry check and exhausted from the next query on, the interior
maximizing node still descends into its first child and returns an
improved (score, move) pair — not the accumulated best (alpha, no move)
that the claimed per-sibling check would produce. -/
theorem C5_counterexample :
    alphabetaFn LatePlayer OneMoveGame 2 0 2 ⊥ ⊤ true 0 =
      some (((⊤ : Score), some (0, 0)), 1) ∧
    (((⊤ : Score), some ((0 : ℤ), (0 : ℤ))) : Score × Option Move) ≠
      ((⊥ : Score), none) :=
  ⟨rfl, by decide⟩

/-- C5 (amended): the minimax loops (leaf and interior) and the alpha-beta
depth-1 helpers do query the clock before each sibling and, when the
remaining time is below the per-node floor, stop scanning and return the
best accumulated at that level as a normal value; the alpha-beta interior
loops are the exception (they descend without a prior check, see the
counterexample). -/
theorem C5_sibling_checks {σ : Type} (p : CustomPlayer σ) (g : Game σ)
    (game : σ) (m : Move) (rest : List Move) (b : Score) (bm : Option Move)
    (alpha beta : Score) (k : ℕ)
    (rec : σ → ℕ → Option ((Score × Option Move) × ℕ))
    (ht : p.time_left k < p.MIN_TIME_LEFT) :
    gmmMaxLoop p g game (m :: rest) b bm k = ((b, bm), k + 1) ∧
    gmmMinLoop p g game (m :: rest) b bm k = ((b, bm), k + 1) ∧
    gabMaxLoop p g game (m :: rest) b bm alpha beta k = ((b, bm), k + 1) ∧
    gabMinLoop p g game (m :: rest) b bm alpha beta k = ((b, bm), k + 1) ∧
    mmMaxLoopT p rec g game (m :: rest) b bm k = some ((b, bm), k + 1) ∧
    mmMinLoopT p rec g game (m :: rest) b bm k = some ((b, bm), k + 1) := by
  refine ⟨?_, ?_, ?_, ?_, ?_, ?_⟩ <;>
    simp [gmmMaxLoop, gmmMinLoop, gabMaxLoop, gabMinLoop, mmMaxLoopT,
      mmMinLoopT, ht]

/-- Witness for C5 (amended) with an exhausted clock. -/
theorem C5_witness :
    gmmMaxLoop LowPlayer OneMoveGame 0 [(0, 0)] ⊥ none 0 =
      (((⊥ : Score), none), 1) ∧
    gmmMinLoop LowPlayer OneMoveGame 0 [(0, 0)] ⊤ none 0 =
      (((⊤ : Score), none), 1) ∧
    gabMaxLoop LowPlayer OneMoveGame 0 [(0, 0)] ⊥ none ⊥ ⊤ 0 =
      (((⊥ : Score), none), 1) ∧
    gabMinLoop LowPlayer OneMoveGame 0 [(0, 0)] ⊤ none ⊥ ⊤ 0 =
      (((⊤ : Score), none), 1) ∧
    mmMaxLoopT LowPlayer (fun _ k => some (((⊥ : Score), none), k))
      OneMoveGame 0 [(0, 0)] ⊥ none 0 = some (((⊥ : Score), none), 1) ∧
    mmMinLoopT LowPlayer (fun _ k => some (((⊥ : Score), none), k))
      OneMoveGame 0 [(0, 0)] ⊤ none 0 = some (((⊤ : Score), none), 1) := by
  have h := C5_sibling_checks LowPlayer OneMoveGame 0 (0, 0) [] ⊥ none ⊥ ⊤ 0
    (fun _ k => some (((⊥ : Score), none), k)) (by show (0 : ℤ) < 20; decide)
  have h2 := C5_sibling_checks LowPlayer OneMoveGame 0 (0, 0) [] ⊤ none ⊥ ⊤ 0
    (fun _ k => some (((⊥ : Score), none), k)) (by show (0 : ℤ) < 20; decide)
  exact ⟨h.1, h2.2.1, h.2.2.1, h2.2.2.2.1, h.2.2.2.2.1, h2.2.2.2.2.2⟩

/-- C6: when the iterative driver's deadline check trips before any depth
has completed, the driver's accumulators are still the Python value None,
and get_move returns None — not the sentinel move (-1, -1) that the spec
(and get_move's own docstring return contract) promise. -/
theorem C6_driver_returns_none :
    get_move LowPlayer OneMoveGame 5 0 [(0, 0)] 0 =
      some (Except.ok none, 1) ∧
    (Except.ok (none : Option Move) : Except Unit (Option Move)) ≠
      Except.ok (some (-1, -1)) :=
  ⟨rfl, by simp⟩

/-- C7 counterexample: in non-iterative mode a tripped per-turn check
raises Timeout, which get_move catches and re-raises as TimeoutError — a
timeout escapes get_move as a distinct error type. -/
theorem C7_counterexample :
    get_move NonIterPlayer OneMoveGame 5 0 [(0, 0)] 0 =
      some (Except.error (), 1) := rfl

/-- C7 (amended): in iterative mode (the configuration whose driver never
raises), every value get_move returns is a normal move result, never the
TimeoutError channel. -/
theorem C7_no_timeout_escape {σ : Type} (p : CustomPlayer σ) (g : Game σ)
    (fuel : ℕ) (game : σ) (lm : List Move) (k : ℕ)
    (hit : p.iterative = true) (res : Except Unit (Option Move)) (k' : ℕ)
    (h : get_move p g fuel game lm k = some (res, k')) :
    ∃ mv, res = Except.ok mv := by
  simp only [get_move] at h
  by_cases h0 : lm = []
  · rw [if_pos h0] at h
    simp only [Option.some.injEq, Prod.mk.injEq] at h
    exact ⟨_, h.1.symm⟩
  · rw [if_neg h0] at h
    by_cases h49 : lm.length = 49
    · rw [if_pos h49] at h
      simp only [Option.some.injEq, Prod.mk.injEq] at h
      exact ⟨_, h.1.symm⟩
    · rw [if_neg h49] at h
      by_cases h48 : lm.length = 48
      · rw [if_pos h48] at h
        cases hleg : g.move_is_legal game (4, 4) <;> rw [hleg] at h <;>
          simp only [Bool.false_eq_true, if_false, if_true,
            Option.some.injEq, Prod.mk.injEq] at h <;>
          exact ⟨_, h.1.symm⟩
      · rw [if_neg h48] at h
        by_cases hmm0 : p.method = "minimax"
        · rw [if_pos hmm0] at h
          rcases hm : CustomPlayer.minimax p g fuel game p.search_depth true k
            with _ | ⟨r0, k0⟩
          · rw [hm] at h
            cases h
          · obtain ⟨best, hbest⟩ := cpminimax_iter_no_error g hit fuel k game
              p.search_depth true r0 k0 hm
            subst hbest
            rcases best with ⟨bs, bm⟩
            simp only [hm] at h
            simp only [Option.some.injEq, Prod.mk.injEq] at h
            exact ⟨bm, h.1.symm⟩
        · rw [if_neg hmm0] at h
          by_cases habm : p.method = "alphabeta"
          · rw [if_pos habm] at h
            rcases hm : CustomPlayer.alphabeta p g fuel game p.search_depth
              (Score.ofInt 1) ⊤ true k with _ | ⟨r0, k0⟩
            · rw [hm] at h
              cases h
            · obtain ⟨best, hbest⟩ := cpalphabeta_iter_no_error g hit fuel k
                game p.search_depth (Score.ofInt 1) ⊤ true r0 k0 hm
              subst hbest
              rcases best with ⟨bs, bm⟩
              simp only [hm] at h
              simp only [Option.some.injEq, Prod.mk.injEq] at h
              exact ⟨bm, h.1.symm⟩
          · rw [if_neg habm] at h
            simp only [Option.some.injEq, Prod.mk.injEq] at h
            exact ⟨_, h.1.symm⟩

/-- Witness for C7 (amended): a concrete iterative run. -/
theorem C7_witness : ∃ mv,
    (Except.ok (none : Option Move) : Except Unit (Option Move)) =
      Except.ok mv :=
  C7_no_timeout_escape LowPlayer OneMoveGame 5 0 [(0, 0)] 0 rfl
    (Except.ok none) 1 rfl

/-- C8 counterexample: a depth-1 alpha-beta call with alpha = 5 > beta = 3
is not rejected: it scans the move list (one clock query) and returns the
normal value (alpha, no move). -/
theorem C8_counterexample :
    alphabetaFn WPlayer WGame 1 3 1 (Score.ofInt 5) (Score.ofInt 3) true 0 =
      some ((Score.ofInt 5, none), 1) := rfl

/-- C8 (amended): the searchers perform no precondition validation —
calls with an inverted window (beta < alpha) or non-positive depth proceed
through the ordinary terminal/leaf logic and return normal values instead
of being rejected at the boundary. -/
theorem C8_no_rejection {σ : Type} (p : CustomPlayer σ) (g : Game σ) (s : σ)
    (k : ℕ) (alpha beta : Score) (_hab : beta < alpha) (fuel : ℕ) (d : ℤ)
    (_hd : d < 1) (hterm : g.get_legal_moves s = []) (maxp : Bool) :
    (alphabetaFn p g (fuel + 1) s 1 alpha beta maxp k).isSome ∧
    minimaxFn p g (fuel + 1) s d true k =
      some (((⊥ : Score), some (-1, -1)), k) := by
  constructor
  · by_cases hlm : g.get_legal_moves s = []
    · rw [alphabetaFn_terminal g fuel s 1 alpha beta maxp k hlm]
      rfl
    · rw [alphabetaFn_depth1 g fuel s alpha beta maxp k hlm]
      rfl
  · have h := @minimaxFn_terminal σ p g fuel s d true k hterm
    simpa using h

/-- Witness for C8 (amended): inverted window 5 > 3, depth 0, terminal
state. -/
theorem C8_witness :
    (alphabetaFn WPlayer WGame 1 4 1 (Score.ofInt 5) (Score.ofInt 3)
      true 0).isSome ∧
    minimaxFn WPlayer WGame 1 4 0 true 0 =
      some (((⊥ : Score), some (-1, -1)), 0) :=
  C8_no_rejection WPlayer WGame 4 0 (Score.ofInt 5) (Score.ofInt 3)
    (by decide) 0 0 (by norm_num) rfl true

/-- C9: with 49 legal moves get_move returns the center cell (4, 4); with
48 it returns the center if legal and otherwise the corner (0, 0) — in
all cases without invoking any search or clock query (the result and the
unchanged query counter do not depend on the method, fuel or oracle). -/
theorem C9_opening_book {σ : Type} (p : CustomPlayer σ) (g : Game σ)
    (fuel : ℕ) (game : σ) (lm : List Move) (k : ℕ) :
    (lm.length = 49 → get_move p g fuel game lm k =
      some (Except.ok (some (4, 4)), k)) ∧
    (lm.length = 48 → g.move_is_legal game (4, 4) = true →
      get_move p g fuel game lm k = some (Except.ok (some (4, 4)), k)) ∧
    (lm.length = 48 → g.move_is_legal game (4, 4) = false →
      get_move p g fuel game lm k = some (Except.ok (some (0, 0)), k)) := by
  refine ⟨fun h49 => ?_, fun h48 hleg => ?_, fun h48 hleg => ?_⟩
  · have h0 : ¬lm = [] := by
      intro hnil
      rw [hnil] at h49
      simp at h49
    simp [get_move, h0, h49]
  · have h0 : ¬lm = [] := by
      intro hnil
      rw [hnil] at h48
      simp at h48
    have h49 : ¬lm.length = 49 := by omega
    simp [get_move, h0, h49, h48, hleg]
  · have h0 : ¬lm = [] := by
      intro hnil
      rw [hnil] at h48
      simp at h48
    have h49 : ¬lm.length = 49 := by omega
    simp [get_move, h0, h49, h48, hleg]

section Ext

variable {p1 p2 : CustomPlayer σ} (g : Game σ)

lemma gmmMaxLoop_ext (hTL : p1.time_left = p2.time_left)
    (hMIN : p1.MIN_TIME_LEFT = p2.MIN_TIME_LEFT) (hSC : p1.score = p2.score) (game : σ) : ∀ (l : List Move) (b : Score)
    (bm : Option Move) (k : ℕ),
    gmmMaxLoop p1 g game l b bm k = gmmMaxLoop p2 g game l b bm k := by
  intro l
  induction l with
  | nil => intro b bm k; rfl
  | cons m rest ih =>
    intro b bm k
    simp only [gmmMaxLoop, hTL, hMIN, hSC]
    by_cases ht : p2.time_left k < p2.MIN_TIME_LEFT
    · rw [if_pos ht, if_pos ht]
    · rw [if_neg ht, if_neg ht]
      by_cases hs : b < Score.ofInt (p2.score (g.forecast_move game m))
      · rw [if_pos hs, if_pos hs]
        exact ih _ _ _
      · rw [if_neg hs, if_neg hs]
        exact ih _ _ _

lemma gmmMinLoop_ext (hTL : p1.time_left = p2.time_left)
    (hMIN : p1.MIN_TIME_LEFT = p2.MIN_TIME_LEFT) (hSC : p1.score = p2.score) (game : σ) : ∀ (l : List Move) (b : Score)
    (bm : Option Move) (k : ℕ),
    gmmMinLoop p1 g game l b bm k = gmmMinLoop p2 g game l b bm k := by
  intro l
  induction l with
  | nil => intro b bm k; rfl
  | cons m rest ih =>
    intro b bm k
    simp only [gmmMinLoop, hTL, hMIN, hSC]
    by_cases ht : p2.time_left k < p2.MIN_TIME_LEFT
    · rw [if_pos ht, if_pos ht]
    · rw [if_neg ht, if_neg ht]
      by_cases hs : Score.ofInt (p2.score (g.forecast_move game m)) < b
      · rw [if_pos hs, if_pos hs]
        exact ih _ _ _
      · rw [if_neg hs, if_neg hs]
        exact ih _ _ _

lemma mmMaxLoopT_ext (hTL : p1.time_left = p2.time_left)
    (hMIN : p1.MIN_TIME_LEFT = p2.MIN_TIME_LEFT) (game : σ)
    {rec1 rec2 : σ → ℕ → Option ((Score × Option Move) × ℕ)}
    (hrec : ∀ (s : σ) (k : ℕ), rec1 s k = rec2 s k) :
    ∀ (l : List Move) (b : Score) (bm : Option Move) (k : ℕ),
    mmMaxLoopT p1 rec1 g game l b bm k = mmMaxLoopT p2 rec2 g game l b bm k := by
  intro l
  induction l with
  | nil => intro b bm k; rfl
  | cons m rest ih =>
    intro b bm k
    simp only [mmMaxLoopT, hTL, hMIN, hrec]
    by_cases ht : p2.time_left k < p2.MIN_TIME_LEFT
    · rw [if_pos ht, if_pos ht]
    · rw [if_neg ht, if_neg ht]
      rcases h2 : rec2 (g.forecast_move game m) (k + 1) with _ | ⟨⟨v0, mv0⟩, k1⟩
      · simp only [h2]
      · simp only [h2]
        by_cases hs : b < v0
        · rw [if_pos hs, if_pos hs]
          exact ih _ _ _
        · rw [if_neg hs, if_neg hs]
          exact ih _ _ _

lemma mmMinLoopT_ext (hTL : p1.time_left = p2.time_left)
    (hMIN : p1.MIN_TIME_LEFT = p2.MIN_TIME_LEFT) (game : σ)
    {rec1 rec2 : σ → ℕ → Option ((Score × Option Move) × ℕ)}
    (hrec : ∀ (s : σ) (k : ℕ), rec1 s k = rec2 s k) :
    ∀ (l : List Move) (b : Score) (bm : Option Move) (k : ℕ),
    mmMinLoopT p1 rec1 g game l b bm k = mmMinLoopT p2 rec2 g game l b bm k := by
  intro l
  induction l with
  | nil => intro b bm k; rfl
  | cons m rest ih =>
    intro b bm k
    simp only [mmMinLoopT, hTL, hMIN, hrec]
    by_cases ht : p2.time_left k < p2.MIN_TIME_LEFT
    · rw [if_pos ht, if_pos ht]
    · rw [if_neg ht, if_neg ht]
      rcases h2 : rec2 (g.forecast_move game m) (k + 1) with _ | ⟨⟨v0, mv0⟩, k1⟩
      · simp only [h2]
      · simp only [h2]
        by_cases hs : v0 < b
        · rw [if_pos hs, if_pos hs]
          exact ih _ _ _
        · rw [if_neg hs, if_neg hs]
          exact ih _ _ _

lemma minimaxFn_ext (hTL : p1.time_left = p2.time_left)
    (hMIN : p1.MIN_TIME_LEFT = p2.MIN_TIME_LEFT) (hSC : p1.score = p2.score) : ∀ (fuel : ℕ) (s : σ) (d : ℤ) (maxp : Bool) (k : ℕ),
    minimaxFn p1 g fuel s d maxp k = minimaxFn p2 g fuel s d maxp k := by
  intro fuel
  induction fuel with
  | zero => intro s d maxp k; rfl
  | succ f ih =>
    intro s d maxp k
    simp only [minimaxFn, hTL, hMIN]
    by_cases hlm : g.get_legal_moves s = []
    · rw [if_pos hlm, if_pos hlm]
    · rw [if_neg hlm, if_neg hlm]
      by_cases hd : d = 1
      · rw [if_pos hd, if_pos hd]
        cases maxp
        · show some (get_minimax_min_move p1 g s (g.get_legal_moves s) k) =
            some (get_minimax_min_move p2 g s (g.get_legal_moves s) k)
          unfold get_minimax_min_move
          rw [gmmMinLoop_ext g hTL hMIN hSC s]
        · show some (get_minimax_max_move p1 g s (g.get_legal_moves s) k) =
            some (get_minimax_max_move p2 g s (g.get_legal_moves s) k)
          unfold get_minimax_max_move
          rw [gmmMaxLoop_ext g hTL hMIN hSC s]
      · rw [if_neg hd, if_neg hd]
        by_cases ht : p2.time_left k < p2.MIN_TIME_LEFT
        · rw [if_pos ht, if_pos ht]
          cases maxp
          · show some (get_minimax_min_move p1 g s (g.get_legal_moves s) (k + 1)) =
              some (get_minimax_min_move p2 g s (g.get_legal_moves s) (k + 1))
            unfold get_minimax_min_move
            rw [gmmMinLoop_ext g hTL hMIN hSC s]
          · show some (get_minimax_max_move p1 g s (g.get_legal_moves s) (k + 1)) =
              some (get_minimax_max_move p2 g s (g.get_legal_moves s) (k + 1))
            unfold get_minimax_max_move
            rw [gmmMaxLoop_ext g hTL hMIN hSC s]
        · rw [if_neg ht, if_neg ht]
          cases maxp
          · show mmMinLoopT p1 (fun s' k' => minimaxFn p1 g f s' (d - 1) true k')
                g s (g.get_legal_moves s) ⊤ none (k + 1) =
              mmMinLoopT p2 (fun s' k' => minimaxFn p2 g f s' (d - 1) true k')
                g s (g.get_legal_moves s) ⊤ none (k + 1)
            exact mmMinLoopT_ext g hTL hMIN s
              (fun s' k' => ih s' (d - 1) true k') _ _ _ _
          · show mmMaxLoopT p1 (fun s' k' => minimaxFn p1 g f s' (d - 1) false k')
                g s (g.get_legal_moves s) ⊥ none (k + 1) =
              mmMaxLoopT p2 (fun s' k' => minimaxFn p2 g f s' (d - 1) false k')
                g s (g.get_legal_moves s) ⊥ none (k + 1)
            exact mmMaxLoopT_ext g hTL hMIN s
              (fun s' k' => ih s' (d - 1) false k') _ _ _ _

lemma gabMaxLoop_ext (hTL : p1.time_left = p2.time_left)
    (hMIN : p1.MIN_TIME_LEFT = p2.MIN_TIME_LEFT) (hSC : p1.score = p2.score) (game : σ) : ∀ (l : List Move) (b : Score)
    (bm : Option Move) (alpha beta : Score) (k : ℕ),
    gabMaxLoop p1 g game l b bm alpha beta k =
      gabMaxLoop p2 g game l b bm alpha beta k := by
  intro l
  induction l with
  | nil => intro b bm alpha beta k; rfl
  | cons m rest ih =>
    intro b bm alpha beta k
    simp only [gabMaxLoop, hTL, hMIN, hSC]
    by_cases ht : p2.time_left k < p2.MIN_TIME_LEFT
    · rw [if_pos ht, if_pos ht]
    · rw [if_neg ht, if_neg ht]
      by_cases hs : b < Score.ofInt (p2.score (g.forecast_move game m))
      · rw [if_pos hs, if_pos hs]
        by_cases hc : beta ≤ max alpha (Score.ofInt (p2.score (g.forecast_move game m)))
        · rw [if_pos hc, if_pos hc]
        · rw [if_neg hc, if_neg hc]
          exact ih _ _ _ _ _
      · rw [if_neg hs, if_neg hs]
        exact ih _ _ _ _ _

lemma gabMinLoop_ext (hTL : p1.time_left = p2.time_left)
    (hMIN : p1.MIN_TIME_LEFT = p2.MIN_TIME_LEFT) (hSC : p1.score = p2.score) (game : σ) : ∀ (l : List Move) (b : Score)
    (bm : Option Move) (alpha beta : Score) (k : ℕ),
    gabMinLoop p1 g game l b bm alpha beta k =
      gabMinLoop p2 g game l b bm alpha beta k := by
  intro l
  induction l with
  | nil => intro b bm alpha beta k; rfl
  | cons m rest ih =>
    intro b bm alpha beta k
    simp only [gabMinLoop, hTL, hMIN, hSC]
    by_cases ht : p2.time_left k < p2.MIN_TIME_LEFT
    · rw [if_pos ht, if_pos ht]
    · rw [if_neg ht, if_neg ht]
      by_cases hs : Score.ofInt (p2.score (g.forecast_move game m)) < b
      · rw [if_pos hs, if_pos hs]
        by_cases hc : min beta (Score.ofInt (p2.score (g.forecast_move game m))) ≤ alpha
        · rw [if_pos hc, if_pos hc]
        · rw [if_neg hc, if_neg hc]
          exact ih _ _ _ _ _
      · rw [if_neg hs, if_neg hs]
        exact ih _ _ _ _ _

lemma abMaxLoopT_ext (hTL : p1.time_left = p2.time_left)
    (hMIN : p1.MIN_TIME_LEFT = p2.MIN_TIME_LEFT) (game : σ)
    {rec1 rec2 : σ → Score → Score → ℕ → Option ((Score × Option Move) × ℕ)}
    (hrec : ∀ (s : σ) (a b : Score) (k : ℕ), rec1 s a b k = rec2 s a b k) :
    ∀ (l : List Move) (b : Score) (bm : Option Move) (alpha beta : Score)
    (k : ℕ),
    abMaxLoopT p1 rec1 g game l b bm alpha beta k =
      abMaxLoopT p2 rec2 g game l b bm alpha beta k := by
  intro l
  induction l with
  | nil => intro b bm alpha beta k; rfl
  | cons m rest ih =>
    intro b bm alpha beta k
    simp only [abMaxLoopT, hTL, hMIN, hrec]
    rcases h2 : rec2 (g.forecast_move game m) alpha beta k with _ | ⟨⟨v0, mv0⟩, k1⟩
    · simp only [h2]
    · simp only [h2]
      by_cases hs : b < v0
      · rw [if_pos hs, if_pos hs]
        by_cases hc : beta ≤ max alpha v0
        · rw [if_pos hc, if_pos hc]
        · rw [if_neg hc, if_neg hc]
          by_cases ht : p2.time_left k1 < p2.MIN_TIME_LEFT
          · rw [if_pos ht, if_pos ht]
          · rw [if_neg ht, if_neg ht]
            exact ih _ _ _ _ _
      · rw [if_neg hs, if_neg hs]
        exact ih _ _ _ _ _

lemma abMinLoopT_ext (hTL : p1.time_left = p2.time_left)
    (hMIN : p1.MIN_TIME_LEFT = p2.MIN_TIME_LEFT) (game : σ)
    {rec1 rec2 : σ → Score → Score → ℕ → Option ((Score × Option Move) × ℕ)}
    (hrec : ∀ (s : σ) (a b : Score) (k : ℕ), rec1 s a b k = rec2 s a b k) :
    ∀ (l : List Move) (b : Score) (bm : Option Move) (alpha beta : Score)
    (k : ℕ),
    abMinLoopT p1 rec1 g game l b bm alpha beta k =
      abMinLoopT p2 rec2 g game l b bm alpha beta k := by
  intro l
  induction l with
  | nil => intro b bm alpha beta k; rfl
  | cons m rest ih =>
    intro b bm alpha beta k
    simp only [abMinLoopT, hTL, hMIN, hrec]
    rcases h2 : rec2 (g.forecast_move game m) alpha beta k with _ | ⟨⟨v0, mv0⟩, k1⟩
    · simp only [h2]
    · simp only [h2]
      by_cases hs : v0 < b
      · rw [if_pos hs, if_pos hs]
        by_cases hc : min beta v0 ≤ alpha
        · rw [if_pos hc, if_pos hc]
        · rw [if_neg hc, if_neg hc]
          by_cases ht : p2.time_left k1 < p2.MIN_TIME_LEFT
          · rw [if_pos ht, if_pos ht]
          · rw [if_neg ht, if_neg ht]
            exact ih _ _ _ _ _
      · rw [if_neg hs, if_neg hs]
        exact ih _ _ _ _ _

lemma alphabetaFn_ext (hTL : p1.time_left = p2.time_left)
    (hMIN : p1.MIN_TIME_LEFT = p2.MIN_TIME_LEFT) (hSC : p1.score = p2.score) : ∀ (fuel : ℕ) (s : σ) (d : ℤ) (alpha beta : Score)
    (maxp : Bool) (k : ℕ),
    alphabetaFn p1 g fuel s d alpha beta maxp k =
      alphabetaFn p2 g fuel s d alpha beta maxp k := by
  intro fuel
  induction fuel with
  | zero => intro s d alpha beta maxp k; rfl
  | succ f ih =>
    intro s d alpha beta maxp k
    simp only [alphabetaFn, hTL, hMIN]
    by_cases hlm : g.get_legal_moves s = []
    · rw [if_pos hlm, if_pos hlm]
    · rw [if_neg hlm, if_neg hlm]
      by_cases hd : d = 1
      · rw [if_pos hd, if_pos hd]
        cases maxp
        · show some (get_alphabeta_min_move p1 g s (g.get_legal_moves s) alpha beta k) =
            some (get_alphabeta_min_move p2 g s (g.get_legal_moves s) alpha beta k)
          unfold get_alphabeta_min_move
          rw [gabMinLoop_ext g hTL hMIN hSC s]
        · show some (get_alphabeta_max_move p1 g s (g.get_legal_moves s) alpha beta k) =
            some (get_alphabeta_max_move p2 g s (g.get_legal_moves s) alpha beta k)
          unfold get_alphabeta_max_move
          rw [gabMaxLoop_ext g hTL hMIN hSC s]
      · rw [if_neg hd, if_neg hd]
        by_cases ht : p2.time_left k < p2.MIN_TIME_LEFT
        · rw [if_pos ht, if_pos ht]
          cases maxp
          · show some (get_alphabeta_min_move p1 g s (g.get_legal_moves s) alpha beta (k + 1)) =
              some (get_alphabeta_min_move p2 g s (g.get_legal_moves s) alpha beta (k + 1))
            unfold get_alphabeta_min_move
            rw [gabMinLoop_ext g hTL hMIN hSC s]
          · show some (get_alphabeta_max_move p1 g s (g.get_legal_moves s) alpha beta (k + 1)) =
              some (get_alphabeta_max_move p2 g s (g.get_legal_moves s) alpha beta (k + 1))
            unfold get_alphabeta_max_move
            rw [gabMaxLoop_ext g hTL hMIN hSC s]
        · rw [if_neg ht, if_neg ht]
          cases maxp
          · show abMinLoopT p1
                (fun s' a b k' => alphabetaFn p1 g f s' (d - 1) a b true k')
                g s (g.get_legal_moves s) beta none alpha beta (k + 1) =
              abMinLoopT p2
                (fun s' a b k' => alphabetaFn p2 g f s' (d - 1) a b true k')
                g s (g.get_legal_moves s) beta none alpha beta (k + 1)
            exact abMinLoopT_ext g hTL hMIN s
              (fun s' a b k' => ih s' (d - 1) a b true k') _ _ _ _ _ _
          · show abMaxLoopT p1
                (fun s' a b k' => alphabetaFn p1 g f s' (d - 1) a b false k')
                g s (g.get_legal_moves s) alpha none alpha beta (k + 1) =
              abMaxLoopT p2
                (fun s' a b k' => alphabetaFn p2 g f s' (d - 1) a b false k')
                g s (g.get_legal_moves s) alpha none alpha beta (k + 1)
            exact abMaxLoopT_ext g hTL hMIN s
              (fun s' a b k' => ih s' (d - 1) a b false k') _ _ _ _ _ _

lemma idLoop_ext (hTL : p1.time_left = p2.time_left)
    (hTIMER : p1.TIMER_THRESHOLD = p2.TIMER_THRESHOLD)
    {search1 search2 : σ → ℤ → ℕ → Option ((Score × Option Move) × ℕ)}
    (hsearch : ∀ (s : σ) (d : ℤ) (k : ℕ), search1 s d k = search2 s d k)
    (game : σ) : ∀ (f : ℕ) (best : Option Score × Option Move) (d : ℤ) (k : ℕ),
    idLoop p1 search1 game f best d k = idLoop p2 search2 game f best d k := by
  intro f
  induction f with
  | zero => intro best d k; rfl
  | succ f2 ih =>
    intro best d k
    simp only [idLoop, hTL, hTIMER]
    by_cases ht : p2.time_left k < p2.TIMER_THRESHOLD
    · rw [if_pos ht, if_pos ht]
    · rw [if_neg ht, if_neg ht]
      rw [hsearch game d (k + 1)]
      rcases h2 : search2 game d (k + 1) with _ | ⟨⟨sv, sm⟩, k1⟩
      · simp only [h2]
      · simp only [h2]
        exact ih _ _ _

end Ext

lemma Score.bot_lt_ofInt (n : ℤ) : (⊥ : Score) < Score.ofInt n :=
  WithBot.bot_lt_coe _

lemma Score.ofInt_lt_top (n : ℤ) : Score.ofInt n < (⊤ : Score) := by
  have h : ((n : WithTop ℤ) : Score) < (((⊤ : WithTop ℤ) : WithTop ℤ) : Score) :=
    WithBot.coe_lt_coe.mpr (WithTop.coe_lt_top n)
  simpa using h

/-- Characterization of the maximizing strict-improvement scan: either no
move improves on the initial accumulator (and all scanned values are at
most it), or the scan returns the value and move of the first index
attaining the maximum — every scanned value is at most it and every
earlier index is strictly below it. -/
lemma mmScanMax_go {tv : Move → Score} :
    ∀ (l : List Move) (b : Score) (bm : Option Move),
    (mmScanMax tv l b bm = (b, bm) ∧ ∀ m ∈ l, tv m ≤ b) ∨
    (∃ (i : ℕ) (hi : i < l.length),
      mmScanMax tv l b bm = (tv (l.get ⟨i, hi⟩), some (l.get ⟨i, hi⟩)) ∧
      b < tv (l.get ⟨i, hi⟩) ∧
      (∀ m ∈ l, tv m ≤ tv (l.get ⟨i, hi⟩)) ∧
      (∀ j (hj : j < i),
        tv (l.get ⟨j, Nat.lt_trans hj hi⟩) < tv (l.get ⟨i, hi⟩))) := by
  intro l
  induction l with
  | nil => intro b bm; exact Or.inl ⟨rfl, by simp⟩
  | cons m rest ih =>
    intro b bm
    by_cases hs : b < tv m
    · rcases ih (tv m) (some m) with ⟨h1, h2⟩ | ⟨i, hi, h1, h2, h3, h4⟩
      · refine Or.inr ⟨0, by simp, ?_, hs, ?_, ?_⟩
        · show mmScanMax tv (m :: rest) b bm = (tv m, some m)
          simp only [mmScanMax]
          rw [if_pos hs]
          exact h1
        · intro m' hm'
          rcases List.mem_cons.mp hm' with h | h
          · subst h; exact le_refl _
          · exact h2 m' h
        · intro j hj
          exact absurd hj (Nat.not_lt_zero j)
      · refine Or.inr ⟨i + 1, Nat.succ_lt_succ hi, ?_, lt_trans hs h2, ?_, ?_⟩
        · simp only [mmScanMax]
          rw [if_pos hs]
          exact h1
        · intro m' hm'
          rcases List.mem_cons.mp hm' with h | h
          · subst h; exact le_of_lt h2
          · exact h3 m' h
        · intro j hj
          cases j with
          | zero => exact h2
          | succ j2 => exact h4 j2 (Nat.lt_of_succ_lt_succ hj)
    · rcases ih b bm with ⟨h1, h2⟩ | ⟨i, hi, h1, h2, h3, h4⟩
      · refine Or.inl ⟨?_, ?_⟩
        · simp only [mmScanMax]
          rw [if_neg hs]
          exact h1
        · intro m' hm'
          rcases List.mem_cons.mp hm' with h | h
          · subst h; exact not_lt.mp hs
          · exact h2 m' h
      · refine Or.inr ⟨i + 1, Nat.succ_lt_succ hi, ?_, h2, ?_, ?_⟩
        · simp only [mmScanMax]
          rw [if_neg hs]
          exact h1
        · intro m' hm'
          rcases List.mem_cons.mp hm' with h | h
          · subst h; exact le_trans (not_lt.mp hs) (le_of_lt h2)
          · exact h3 m' h
        · intro j hj
          cases j with
          | zero => exact lt_of_le_of_lt (not_lt.mp hs) h2
          | succ j2 => exact h4 j2 (Nat.lt_of_succ_lt_succ hj)

/-- Dual characterization of the minimizing scan. -/
lemma mmScanMin_go {tv : Move → Score} :
    ∀ (l : List Move) (b : Score) (bm : Option Move),
    (mmScanMin tv l b bm = (b, bm) ∧ ∀ m ∈ l, b ≤ tv m) ∨
    (∃ (i : ℕ) (hi : i < l.length),
      mmScanMin tv l b bm = (tv (l.get ⟨i, hi⟩), some (l.get ⟨i, hi⟩)) ∧
      tv (l.get ⟨i, hi⟩) < b ∧
      (∀ m ∈ l, tv (l.get ⟨i, hi⟩) ≤ tv m) ∧
      (∀ j (hj : j < i),
        tv (l.get ⟨i, hi⟩) < tv (l.get ⟨j, Nat.lt_trans hj hi⟩))) := by
  intro l
  induction l with
  | nil => intro b bm; exact Or.inl ⟨rfl, by simp⟩
  | cons m rest ih =>
    intro b bm
    by_cases hs : tv m < b
    · rcases ih (tv m) (some m) with ⟨h1, h2⟩ | ⟨i, hi, h1, h2, h3, h4⟩
      · refine Or.inr ⟨0, by simp, ?_, hs, ?_, ?_⟩
        · show mmScanMin tv (m :: rest) b bm = (tv m, some m)
          simp only [mmScanMin]
          rw [if_pos hs]
          exact h1
        · intro m' hm'
          rcases List.mem_cons.mp hm' with h | h
          · subst h; exact le_refl _
          · exact h2 m' h
        · intro j hj
          exact absurd hj (Nat.not_lt_zero j)
      · refine Or.inr ⟨i + 1, Nat.succ_lt_succ hi, ?_, lt_trans h2 hs, ?_, ?_⟩
        · simp only [mmScanMin]
          rw [if_pos hs]
          exact h1
        · intro m' hm'
          rcases List.mem_cons.mp hm' with h | h
          · subst h; exact le_of_lt h2
          · exact h3 m' h
        · intro j hj
          cases j with
          | zero => exact h2
          | succ j2 => exact h4 j2 (Nat.lt_of_succ_lt_succ hj)
    · rcases ih b bm with ⟨h1, h2⟩ | ⟨i, hi, h1, h2, h3, h4⟩
      · refine Or.inl ⟨?_, ?_⟩
        · simp only [mmScanMin]
          rw [if_neg hs]
          exact h1
        · intro m' hm'
          rcases List.mem_cons.mp hm' with h | h
          · subst h; exact not_lt.mp hs
          · exact h2 m' h
      · refine Or.inr ⟨i + 1, Nat.succ_lt_succ hi, ?_, h2, ?_, ?_⟩
        · simp only [mmScanMin]
          rw [if_neg hs]
          exact h1
        · intro m' hm'
          rcases List.mem_cons.mp hm' with h | h
          · subst h; exact le_trans (le_of_lt h2) (not_lt.mp hs)
          · exact h3 m' h
        · intro j hj
          cases j with
          | zero => exact lt_of_lt_of_le h2 (not_lt.mp hs)
          | succ j2 => exact h4 j2 (Nat.lt_of_succ_lt_succ hj)

/-- C4: with ample time and a non-empty move list, a depth-1 minimax
search returns, for the maximizing side, the first move in enumeration
order whose evaluator score on the forecast state attains the maximum
(every score is at most the returned one and every earlier move scores
strictly less — strict-inequality replacement makes the first extremal
move win ties), and dually the first minimum for the minimizing side. -/
theorem C4_depth1_first_extremal {σ : Type} (p : CustomPlayer σ)
    (g : Game σ) (hp : ample p) (s : σ)
    (hlm : ¬g.get_legal_moves s = []) (fuel : ℕ) (k : ℕ) :
    (∃ (k' i : ℕ) (hi : i < (g.get_legal_moves s).length),
      minimaxFn p g (fuel + 1) s 1 true k =
        some ((Score.ofInt (p.score (g.forecast_move s
            ((g.get_legal_moves s).get ⟨i, hi⟩))),
          some ((g.get_legal_moves s).get ⟨i, hi⟩)), k') ∧
      (∀ m ∈ g.get_legal_moves s,
        Score.ofInt (p.score (g.forecast_move s m)) ≤
          Score.ofInt (p.score (g.forecast_move s
            ((g.get_legal_moves s).get ⟨i, hi⟩)))) ∧
      (∀ j (hj : j < i),
        Score.ofInt (p.score (g.forecast_move s
            ((g.get_legal_moves s).get ⟨j, Nat.lt_trans hj hi⟩))) <
          Score.ofInt (p.score (g.forecast_move s
            ((g.get_legal_moves s).get ⟨i, hi⟩))))) ∧
    (∃ (k' i : ℕ) (hi : i < (g.get_legal_moves s).length),
      minimaxFn p g (fuel + 1) s 1 false k =
        some ((Score.ofInt (p.score (g.forecast_move s
            ((g.get_legal_moves s).get ⟨i, hi⟩))),
          some ((g.get_legal_moves s).get ⟨i, hi⟩)), k') ∧
      (∀ m ∈ g.get_legal_moves s,
        Score.ofInt (p.score (g.forecast_move s
            ((g.get_legal_moves s).get ⟨i, hi⟩))) ≤
          Score.ofInt (p.score (g.forecast_move s m))) ∧
      (∀ j (hj : j < i),
        Score.ofInt (p.score (g.forecast_move s
            ((g.get_legal_moves s).get ⟨i, hi⟩))) <
          Score.ofInt (p.score (g.forecast_move s
            ((g.get_legal_moves s).get ⟨j, Nat.lt_trans hj hi⟩))))) := by
  obtain ⟨m0, hm0⟩ := List.exists_mem_of_ne_nil (g.get_legal_moves s) hlm
  constructor
  · have hrun := @minimaxFn_depth1 σ p g fuel s true k hlm
    obtain ⟨k', hk'⟩ := gmmMaxLoop_ample g hp s (g.get_legal_moves s) ⊥ none k
    rcases @mmScanMax_go (fun m => Score.ofInt (p.score (g.forecast_move s m)))
        (g.get_legal_moves s) ⊥ none with ⟨h1, h2⟩ | ⟨i, hi, h1, h2, h3, h4⟩
    · exact absurd (lt_of_lt_of_le (Score.bot_lt_ofInt _) (h2 m0 hm0))
        (lt_irrefl _)
    · refine ⟨k', i, hi, ?_, h3, h4⟩
      rw [hrun]
      show some (gmmMaxLoop p g s (g.get_legal_moves s) ⊥ none k) = _
      rw [hk', h1]
  · have hrun := @minimaxFn_depth1 σ p g fuel s false k hlm
    obtain ⟨k', hk'⟩ := gmmMinLoop_ample g hp s (g.get_legal_moves s) ⊤ none k
    rcases @mmScanMin_go (fun m => Score.ofInt (p.score (g.forecast_move s m)))
        (g.get_legal_moves s) ⊤ none with ⟨h1, h2⟩ | ⟨i, hi, h1, h2, h3, h4⟩
    · exact absurd (lt_of_le_of_lt (h2 m0 hm0) (Score.ofInt_lt_top _))
        (lt_irrefl _)
    · refine ⟨k', i, hi, ?_, h3, h4⟩
      rw [hrun]
      show some (gmmMinLoop p g s (g.get_legal_moves s) ⊤ none k) = _
      rw [hk', h1]

/-- Witness for C4 on the concrete game (three root moves, scores 1, 2,
3). -/
theorem C4_witness :
    (∃ (k' i : ℕ) (hi : i < (WGame.get_legal_moves 0).length),
      minimaxFn WPlayer WGame 1 0 1 true 0 =
        some ((Score.ofInt (WPlayer.score (WGame.forecast_move 0
            ((WGame.get_legal_moves 0).get ⟨i, hi⟩))),
          some ((WGame.get_legal_moves 0).get ⟨i, hi⟩)), k') ∧
      (∀ m ∈ WGame.get_legal_moves 0,
        Score.ofInt (WPlayer.score (WGame.forecast_move 0 m)) ≤
          Score.ofInt (WPlayer.score (WGame.forecast_move 0
            ((WGame.get_legal_moves 0).get ⟨i, hi⟩)))) ∧
      (∀ j (hj : j < i),
        Score.ofInt (WPlayer.score (WGame.forecast_move 0
            ((WGame.get_legal_moves 0).get ⟨j, Nat.lt_trans hj hi⟩))) <
          Score.ofInt (WPlayer.score (WGame.forecast_move 0
            ((WGame.get_legal_moves 0).get ⟨i, hi⟩))))) ∧
    (∃ (k' i : ℕ) (hi : i < (WGame.get_legal_moves 0).length),
      minimaxFn WPlayer WGame 1 0 1 false 0 =
        some ((Score.ofInt (WPlayer.score (WGame.forecast_move 0
            ((WGame.get_legal_moves 0).get ⟨i, hi⟩))),
          some ((WGame.get_legal_moves 0).get ⟨i, hi⟩)), k') ∧
      (∀ m ∈ WGame.get_legal_moves 0,
        Score.ofInt (WPlayer.score (WGame.forecast_move 0
            ((WGame.get_legal_moves 0).get ⟨i, hi⟩))) ≤
          Score.ofInt (WPlayer.score (WGame.forecast_move 0 m))) ∧
      (∀ j (hj : j < i),
        Score.ofInt (WPlayer.score (WGame.forecast_move 0
            ((WGame.get_legal_moves 0).get ⟨i, hi⟩))) <
          Score.ofInt (WPlayer.score (WGame.forecast_move 0
            ((WGame.get_legal_moves 0).get ⟨j, Nat.lt_trans hj hi⟩))))) :=
  C4_depth1_first_extremal WPlayer WGame WPlayer_ample 0 (by decide) 0 0

/-- C10: when iterative deepening is enabled, the (score, move) pair
returned by CustomPlayer.minimax and by CustomPlayer.alphabeta is
independent of both the depth argument and the search_depth field: two
runs identical in every observable input except those two values return
the same result, because the iterative branch always deepens from depth 1
and reads neither value. -/
theorem C10_iterative_ignores_depth {σ : Type} (p1 p2 : CustomPlayer σ)
    (g : Game σ) (hTL : p1.time_left = p2.time_left)
    (hMIN : p1.MIN_TIME_LEFT = p2.MIN_TIME_LEFT)
    (hTIMER : p1.TIMER_THRESHOLD = p2.TIMER_THRESHOLD)
    (hSC : p1.score = p2.score) (hIT1 : p1.iterative = true)
    (hIT2 : p2.iterative = true) (fuel : ℕ) (game : σ) (d1 d2 : ℤ)
    (maxp : Bool) (k : ℕ) (alpha beta : Score) :
    CustomPlayer.minimax p1 g fuel game d1 maxp k =
      CustomPlayer.minimax p2 g fuel game d2 maxp k ∧
    CustomPlayer.alphabeta p1 g fuel game d1 alpha beta maxp k =
      CustomPlayer.alphabeta p2 g fuel game d2 alpha beta maxp k := by
  constructor
  · simp only [CustomPlayer.minimax, hIT1, hIT2]
    rw [if_neg (by simp : ¬(true = false)), if_neg (by simp : ¬(true = false))]
    rw [idLoop_ext hTL hTIMER
      (fun s d' k' => minimaxFn_ext g hTL hMIN hSC fuel s d' maxp k') game
      fuel (none, none) 1 k]
  · simp only [CustomPlayer.alphabeta, hIT1, hIT2]
    rw [if_neg (by simp : ¬(true = false)), if_neg (by simp : ¬(true = false))]
    rw [idLoop_ext hTL hTIMER
      (fun s d' k' => alphabetaFn_ext g hTL hMIN hSC fuel s d' alpha beta maxp k')
      game fuel (none, none) 1 k]

/-- Witness for C10: players differing only in search_depth, depth
arguments 5 and -2. -/
theorem C10_witness :
    CustomPlayer.minimax WPlayer WGame 2 0 5 true 0 =
      CustomPlayer.minimax { WPlayer with search_depth := 7 } WGame 2 0
        (-2) true 0 ∧
    CustomPlayer.alphabeta WPlayer WGame 2 0 5 ⊥ ⊤ true 0 =
      CustomPlayer.alphabeta { WPlayer with search_depth := 7 } WGame 2 0
        (-2) ⊥ ⊤ true 0 :=
  C10_iterative_ignores_depth WPlayer { WPlayer with search_depth := 7 }
    WGame rfl rfl rfl rfl rfl rfl 2 0 5 (-2) true 0 ⊥ ⊤

/-- Witness for C9 on concrete 49- and 48-move lists. -/
theorem C9_witness :
    get_move WPlayer WGame 1 0 L49 0 = some (Except.ok (some (4, 4)), 0) ∧
    get_move WPlayer WGame 1 0 L48 0 = some (Except.ok (some (4, 4)), 0) ∧
    get_move WPlayer NoCenterGame 1 0 L48 0 =
      some (Except.ok (some (0, 0)), 0) :=
  ⟨(C9_opening_book WPlayer WGame 1 0 L49 0).1 (by rfl),
   (C9_opening_book WPlayer WGame 1 0 L48 0).2.1 (by rfl) rfl,
   (C9_opening_book WPlayer NoCenterGame 1 0 L48 0).2.2 (by rfl) rfl⟩

end IsolationAI
